import Mathlib

/-!
Verification of the word-repository and quiz-engine core of `En_word.c`.

The C program stores word entries in a global array `library` (capacity
`WORD_MAX = 1000`) together with a folder-name index `folderList`
(capacity `FOLDER_MAX = 50`).  Strings are modelled as `List Char`
(the C code works on NUL-terminated byte strings; all characters the
program treats specially are ASCII, so the scalar-value view coincides
with the byte view on them).  Fallible parsing returns `Option`.
-/

/-- Capacity of the word store (`#define WORD_MAX 1000`). -/
def WORD_MAX : Nat := 1000

/-- Capacity of the folder list (`#define FOLDER_MAX 50`). -/
def FOLDER_MAX : Nat := 50

/-- One word entry (`struct Word`): english, chinese, folder, errorCount.
`errorCount` is a C `int`, modelled as `Int`. -/
structure Word where
  english : List Char
  chinese : List Char
  folder : List Char
  errorCount : Int
deriving DecidableEq, Repr, Inhabited

/-- The global state of the program: `library` with `wordCount`
(modelled as the list length) and `folderList` with `folderCount`. -/
structure Store where
  library : List Word
  folderList : List (List Char)
deriving DecidableEq, Repr

/-- The store at program start: no words, no folders. -/
def emptyStore : Store := ⟨[], []⟩

/-- `toLowerEN` on a single character: the C code adds 32 to bytes in
the ASCII range `'A'..'Z'` (65..90) and leaves everything else alone. -/
def lowerChar (c : Char) : Char :=
  if 65 ≤ c.toNat ∧ c.toNat ≤ 90 then Char.ofNat (c.toNat + 32) else c

/-- `toLowerEN`: lower-cases the ASCII letters of a string in place. -/
def toLowerEN (s : List Char) : List Char := s.map lowerChar

/-- `inputLine` truncates the `fgets` buffer at the first newline
(`str[strcspn(str, "\n")] = '\0'`). -/
def inputLineTrunc (s : List Char) : List Char := s.takeWhile (fun c => c ≠ '\n')

/-- Delimiter predicate for `strtok(..., "\t")`. -/
def isTab (c : Char) : Bool := c == '\t'

/-- Delimiter predicate for `strtok(..., "\t\r\n")`. -/
def isTRN (c : Char) : Bool := c == '\t' || c == '\r' || c == '\n'

/-- One `strtok` call with delimiter predicate `d`: skip leading
delimiters; if nothing is left return `none`, otherwise return the
maximal delimiter-free token and the remainder after the terminating
delimiter (which `strtok` overwrites with `'\0'` and skips). -/
def strtok1 (d : Char → Bool) (s : List Char) : Option (List Char × List Char) :=
  match s.dropWhile d with
  | [] => none
  | c :: cs =>
    some ((c :: cs).takeWhile (fun x => !(d x)), ((c :: cs).dropWhile (fun x => !(d x))).drop 1)

/-- `isspace` of C's `atoi` front end: space, tab, newline, vertical
tab, form feed, carriage return. -/
def isSpaceC (c : Char) : Bool :=
  c == ' ' || c == '\t' || c == '\n' || c == Char.ofNat 11 || c == Char.ofNat 12 || c == '\r'

/-- Decimal digit test, as the byte-range check C's `atoi` performs. -/
def isDigitC (c : Char) : Bool := 48 ≤ c.toNat && c.toNat ≤ 57

/-- Accumulate decimal digits until the first non-digit, as `atoi` does
after the sign. -/
def digitsValGo (acc : Nat) : List Char → Nat
  | [] => acc
  | c :: cs => if isDigitC c then digitsValGo (acc * 10 + (c.toNat - 48)) cs else acc

/-- C `atoi`: skip whitespace, optional sign, digits; anything else (or
no digits at all) yields 0. -/
def atoi (s : List Char) : Int :=
  match s.dropWhile isSpaceC with
  | [] => 0
  | c :: cs =>
    if c == '-' then -(digitsValGo 0 cs : Int)
    else if c == '+' then (digitsValGo 0 cs : Int)
    else (digitsValGo 0 (c :: cs) : Int)

/-- Decimal digit character, as produced by `fprintf("%d", ...)`. -/
def digitChar (d : Nat) : Char :=
  Char.ofNat (48 + d)

/-- Little-endian digit list of a natural number; the first argument is
fuel that makes the recursion structural (`n` itself is enough fuel). -/
def natDigitsRevGo : Nat → Nat → List Char
  | 0, n => [digitChar (n % 10)]
  | fuel + 1, n => if n < 10 then [digitChar n] else digitChar (n % 10) :: natDigitsRevGo fuel (n / 10)

/-- Decimal representation of a natural number. -/
def natToStr (n : Nat) : List Char := (natDigitsRevGo n n).reverse

/-- Decimal representation of an `int`, as printed by `%d`. -/
def intToStr (i : Int) : List Char :=
  if i < 0 then '-' :: natToStr (-i).toNat else natToStr i.toNat

/-- `updateFolderList`: register a folder name unless it is already
present; silently drop it when the list is at capacity. -/
def updateFolderList (fl : List (List Char)) (name : List Char) : List (List Char) :=
  if name ∈ fl then fl
  else if fl.length < FOLDER_MAX then fl ++ [name] else fl

/-- The tokenization and record construction of `parseLine`: four
`strtok` calls (`"\t"`, `"\t"`, `"\t\r\n"`, `"\t\r\n"`); the line is
rejected when one of the three mandatory fields is missing; a missing
fourth field defaults the error count to 0, a present one goes through
`atoi`. -/
def parseRecord? (line : List Char) : Option Word :=
  match strtok1 isTab line with
  | none => none
  | some (folder, r1) =>
    match strtok1 isTab r1 with
    | none => none
    | some (en, r2) =>
      match strtok1 isTRN r2 with
      | none => none
      | some (ch, r3) =>
        let err : Int :=
          match strtok1 isTRN r3 with
          | none => 0
          | some (e, _) => atoi e
        some ⟨en, ch, folder, err⟩

/-- `parseLine`: skip when the store is full (`isFull`), otherwise parse
the line; on success append the entry and register its folder. -/
def parseLine (s : Store) (line : List Char) : Store :=
  if WORD_MAX ≤ s.library.length then s
  else
    match parseRecord? line with
    | none => s
    | some w => ⟨s.library ++ [w], updateFolderList s.folderList w.folder⟩

/-- The body of `loadFile`: feed every line to `parseLine`. -/
def loadLines (s : Store) (lines : List (List Char)) : Store :=
  lines.foldl parseLine s

/-- `loadFile` instrumented with the number of `[Error]` messages
`isFull` prints: one for every line processed while the store is
already full. -/
def loadLinesCount (s : Store) (lines : List (List Char)) : Store × Nat :=
  lines.foldl
    (fun p line => (parseLine p.1 line, p.2 + (if WORD_MAX ≤ p.1.library.length then 1 else 0)))
    (s, 0)

/-- A four-field record line `folder\tenglish\tchinese\terr\n`. -/
def mkLine4 (f e c E : List Char) : List Char :=
  f ++ '\t' :: (e ++ '\t' :: (c ++ '\t' :: (E ++ ['\n'])))

/-- A three-field record line `folder\tenglish\tchinese\n` (the
pre-error-count file format). -/
def mkLine3 (f e c : List Char) : List Char :=
  f ++ '\t' :: (e ++ '\t' :: (c ++ ['\n']))

/-- The `sprintf(wholeLine, "%s\t%s\t%s", folder, en, ch)` of `AddWord`:
a three-field record with no trailing newline. -/
def mkLineNoNL (f e c : List Char) : List Char :=
  f ++ '\t' :: (e ++ '\t' :: c)

/-- One serialized record of `saveToFile`:
`fprintf(fp, "%s\t%s\t%s\t%d\n", folder, english, chinese, errorCount)`. -/
def serializeEntry (w : Word) : List Char :=
  w.folder ++ '\t' :: w.english ++ '\t' :: w.chinese ++ '\t' :: intToStr w.errorCount ++ ['\n']

/-- `saveToFile` as a byte stream: the records of all entries in storage
order. -/
def serialize (s : Store) : List Char := (s.library.map serializeEntry).flatten

/-- Split a byte stream into `fgets` lines: every line keeps its
terminating newline; a final newline-less chunk is its own line. -/
def splitLinesGo (cur : List Char) : List Char → List (List Char)
  | [] => if cur.isEmpty then [] else [cur.reverse]
  | c :: cs =>
    if c == '\n' then (cur.reverse ++ ['\n']) :: splitLinesGo [] cs
    else splitLinesGo (c :: cur) cs

/-- Split a byte stream into the lines `fgets` would deliver. -/
def splitLines (cs : List Char) : List (List Char) := splitLinesGo [] cs

/-- `Deserialize`: read the stream line by line into an empty store,
exactly as `loadFile` does at program start. -/
def deserialize (cs : List Char) : Store := loadLines emptyStore (splitLines cs)

/-- Swap two positions of an index array, as the element swaps in
`shuffle` and `showErrorList` do. -/
def listSwap (l : List Nat) (i j : Nat) : List Nat :=
  (l.set i (l.getD j 0)).set j (l.getD i 0)

/-- The Fisher–Yates loop of `shuffle`: at loop counter `i` (counting
down) draw `rnd i` and swap positions `i` and `rnd i % (i + 1)`.  `rnd`
models the successive values of `rand()`, indexed by the loop counter
that consumes them. -/
def shuffleGo (rnd : Nat → Nat) : List Nat → Nat → List Nat
  | arr, 0 => arr
  | arr, i + 1 => shuffleGo rnd (listSwap arr (i + 1) (rnd (i + 1) % (i + 1 + 1))) i

/-- `shuffle(arr, n)`: run the Fisher–Yates loop from `i = n - 1` down
to `i = 1`. -/
def shuffle (arr : List Nat) (rnd : Nat → Nat) : List Nat :=
  shuffleGo rnd arr (arr.length - 1)

/-- Error count of the entry a collected index points at. -/
def ecOf (l : List Word) (k : Nat) : Int := (l.getD k default).errorCount

/-- The collection loop of `showErrorList` (and `takeErrorTest`): the
indices of all entries with a positive error count, in storage order. -/
def collectErrorIdx (l : List Word) : List Nat :=
  (List.range l.length).filter (fun i => decide (0 < ecOf l i))

/-- The inner loop of the selection sort in `showErrorList`: scan `j`
from `i + 1` to the end and remember the position of the strictly
largest error count seen (the first-encountered maximum wins ties). -/
def innerMax (ec : Nat → Int) (idx : List Nat) (i : Nat) : Nat :=
  (List.range' (i + 1) (idx.length - (i + 1))).foldl
    (fun m j => if ec (idx.getD m 0) < ec (idx.getD j 0) then j else m) i

/-- The outer loop of the selection sort in `showErrorList`: for `i`
from 0 while `i < length - 1`, find the maximum of the rest and swap it
to position `i` (skipping the swap when it is already there).  The fuel
argument makes the recursion structural; `idx.length` is enough. -/
def selSortGo (ec : Nat → Int) : List Nat → Nat → Nat → List Nat
  | idx, _, 0 => idx
  | idx, i, fuel + 1 =>
    if i < idx.length - 1 then
      let m := innerMax ec idx i
      selSortGo ec (if m ≠ i then listSwap idx i m else idx) (i + 1) fuel
    else idx

/-- `ErrorLedger.RankedEntries`: collect the indices with positive error
count and selection-sort them by error count, descending. -/
def rankedEntries (l : List Word) : List Nat :=
  let idx := collectErrorIdx l
  selSortGo (ecOf l) idx 0 idx.length

/-- `askQuestion`: lower-case the answer and compare it with the
current entry's english; on a hit bump the score, on a miss bump that
entry's error count.  Returns the new store, the new score and whether
the answer was correct. -/
def askQuestion (s : Store) (wordIdx : Nat) (score : Nat) (answer : List Char) :
    Store × Nat × Bool :=
  let a := toLowerEN answer
  let w := s.library.getD wordIdx default
  if a = w.english then (s, score + 1, true)
  else
    (⟨s.library.set wordIdx { w with errorCount := w.errorCount + 1 }, s.folderList⟩,
     score, false)

/-- The question loop of `runTest`: play the rounds in order, collecting
the indices answered wrongly (in the order they were missed).  Returns
the final store, the score and the missed list. -/
def runTestGo (s : Store) (sc : Nat) : List Nat → List (List Char) → Store × Nat × List Nat
  | [], _ => (s, sc, [])
  | _ :: _, [] => (s, sc, [])
  | i :: is, a :: as =>
    let q := askQuestion s i sc a
    let r := runTestGo q.1 q.2.1 is as
    (r.1, r.2.1, if q.2.2 then r.2.2 else i :: r.2.2)

/-- `runTest` over a pre-shuffled index list, with the user's answers
supplied as a list. -/
def runTest (s : Store) (indices : List Nat) (answers : List (List Char)) :
    Store × Nat × List Nat :=
  runTestGo s 0 indices answers

/-- The swap-remove of `deleteWord`:
`library[i] = library[wordCount - 1]; wordCount--`. -/
def swapRemove (l : List Word) (i : Nat) : List Word :=
  match l.getLast? with
  | none => l
  | some b => (l.set i b).dropLast

/-- `DeleteByIndex`: swap-remove the entry at a given index (the folder
list is untouched). -/
def deleteByIndex (s : Store) (i : Nat) : Store := ⟨swapRemove s.library i, s.folderList⟩

/-- `deleteWord`: read a target, lower-case it, scan for the first entry
whose english equals it and swap-remove that entry; `end`, an empty
store or a miss leave the store unchanged.  The model takes the
confirmation prompt as answered with yes. -/
def deleteWord (s : Store) (targetInput : List Char) : Store :=
  if s.library = [] then s
  else
    let target := toLowerEN (inputLineTrunc targetInput)
    if target = "end".data then s
    else
      match s.library.findIdx? (fun w => decide (w.english = target)) with
      | none => s
      | some i => deleteByIndex s i

/-- One iteration of the input loop of `AddWord`, for the already
lower-cased session folder `folder`: read a line, lower-case it, split
it at tabs into english and chinese, reject a malformed line or a
duplicate `(folder, english, chinese)` triple, and otherwise hand
`folder\tenglish\tchinese` to `parseLine`. -/
def addWordIter (s : Store) (folder rawInput : List Char) : Store :=
  if WORD_MAX ≤ s.library.length then s
  else
    let raw := toLowerEN (inputLineTrunc rawInput)
    if raw = "end".data then s
    else
      match strtok1 isTab raw with
      | none => s
      | some (en, r1) =>
        match strtok1 isTab r1 with
        | none => s
        | some (ch, _) =>
          if s.library.any (fun w => decide (w.folder = folder ∧ w.english = en ∧ w.chinese = ch))
          then s
          else parseLine s (mkLineNoNL folder en ch)

/-- The store-mutating operations of the program, with the raw user
input they consume. -/
inductive Op where
  | load : List Char → Op
  | add : List Char → List Char → Op
  | delete : List Char → Op
  | quiz : Nat → List Char → Op
deriving Repr

/-- Apply one operation to the store: a `loadFile` line, an `AddWord`
session with one word (folder registration plus one loop iteration), a
`deleteWord` call, or one quiz round (`askQuestion`). -/
def stepOp (s : Store) : Op → Store
  | .load line => parseLine s line
  | .add fIn raw =>
    let f := toLowerEN (inputLineTrunc fIn)
    if f = [] then s
    else addWordIter ⟨s.library, updateFolderList s.folderList f⟩ f raw
  | .delete t => deleteWord s t
  | .quiz i a => (askQuestion s i 0 a).1

/-- Run a sequence of operations from a starting store. -/
def runOps (s : Store) (ops : List Op) : Store := ops.foldl stepOp s

/-- The non-empty maximal tab-free chunks of a line: the "non-empty
tab-separated parts" of the persistence format, computed strtok-style
with tab as the only delimiter.  Fuel-driven to keep the recursion
structural; the line length is enough fuel. -/
def tabTokensGo : Nat → List Char → List (List Char)
  | 0, _ => []
  | fuel + 1, cs =>
    match strtok1 isTab cs with
    | none => []
    | some (t, r) => t :: tabTokensGo fuel r

/-- The non-empty tab-separated parts of a line. -/
def tabTokens (cs : List Char) : List (List Char) := tabTokensGo cs.length cs

/-! ### Character-level helper lemmas -/

theorem char_toNat_ofNat {n : Nat} (h : n < 55296) : (Char.ofNat n).toNat = n := by
  have hv : n.isValidChar := Or.inl h
  simp [Char.ofNat, hv, Char.ofNatAux, Char.toNat, UInt32.toNat]

theorem char_toNat_inj {c d : Char} (h : c.toNat = d.toNat) : c = d :=
  Char.eq_of_val_eq (UInt32.toNat.inj h)

theorem lowerChar_eq_self {c : Char} (h : ¬(65 ≤ c.toNat ∧ c.toNat ≤ 90)) :
    lowerChar c = c := by
  simp [lowerChar, h]

theorem toNat_lowerChar_upper {c : Char} (h : 65 ≤ c.toNat ∧ c.toNat ≤ 90) :
    (lowerChar c).toNat = c.toNat + 32 := by
  have hlt : c.toNat + 32 < 55296 := by omega
  simp [lowerChar, h, char_toNat_ofNat hlt]

theorem isTab_lowerChar (c : Char) : isTab (lowerChar c) = isTab c := by
  by_cases h : 65 ≤ c.toNat ∧ c.toNat ≤ 90
  · have h1 := toNat_lowerChar_upper h
    have hA : isTab (lowerChar c) = false := by
      simp only [isTab, beq_eq_false_iff_ne, ne_eq]
      intro he
      have h9 : (lowerChar c).toNat = 9 := by rw [he]; decide
      omega
    have hB : isTab c = false := by
      simp only [isTab, beq_eq_false_iff_ne, ne_eq]
      intro he
      have h9 : c.toNat = 9 := by rw [he]; decide
      omega
    rw [hA, hB]
  · rw [lowerChar_eq_self h]

theorem isTRN_lowerChar (c : Char) : isTRN (lowerChar c) = isTRN c := by
  by_cases h : 65 ≤ c.toNat ∧ c.toNat ≤ 90
  · have h1 := toNat_lowerChar_upper h
    have hA : isTRN (lowerChar c) = false := by
      simp only [isTRN, Bool.or_eq_false_iff, beq_eq_false_iff_ne, ne_eq]
      refine ⟨⟨?_, ?_⟩, ?_⟩ <;> intro he <;>
        first
        | (have h9 : (lowerChar c).toNat = 9 := by rw [he]; decide
           omega)
        | (have h9 : (lowerChar c).toNat = 13 := by rw [he]; decide
           omega)
        | (have h9 : (lowerChar c).toNat = 10 := by rw [he]; decide
           omega)
    have hB : isTRN c = false := by
      simp only [isTRN, Bool.or_eq_false_iff, beq_eq_false_iff_ne, ne_eq]
      refine ⟨⟨?_, ?_⟩, ?_⟩ <;> intro he <;>
        first
        | (have h9 : c.toNat = 9 := by rw [he]; decide
           omega)
        | (have h9 : c.toNat = 13 := by rw [he]; decide
           omega)
        | (have h9 : c.toNat = 10 := by rw [he]; decide
           omega)
    rw [hA, hB]
  · rw [lowerChar_eq_self h]

theorem lowerChar_eq_cr_iff (c : Char) : lowerChar c = '\r' ↔ c = '\r' := by
  by_cases h : 65 ≤ c.toNat ∧ c.toNat ≤ 90
  · have h1 := toNat_lowerChar_upper h
    constructor
    · intro he
      have h9 : (lowerChar c).toNat = 13 := by rw [he]; decide
      omega
    · intro he
      have h9 : c.toNat = 13 := by rw [he]; decide
      omega
  · rw [lowerChar_eq_self h]

/-! ### strtok-level helper lemmas -/

theorem strtok1_none_iff (d : Char → Bool) (s : List Char) :
    strtok1 d s = none ↔ ∀ c ∈ s, d c = true := by
  rw [← List.dropWhile_eq_nil_iff (p := d)]
  unfold strtok1
  cases s.dropWhile d <;> simp

theorem dropWhile_head_false {d : Char → Bool} :
    ∀ {s : List Char} {c : Char} {cs : List Char}, s.dropWhile d = c :: cs → d c = false := by
  intro s
  induction s with
  | nil =>
    intro c cs h
    simp at h
  | cons a t ih =>
    intro c cs h
    rw [List.dropWhile_cons] at h
    split at h
    · exact ih h
    · next hneg =>
      cases h
      simpa using hneg

theorem strtok1_prefix (d : Char → Bool) (t : List Char) (x : Char) (rest : List Char)
    (ht : t ≠ []) (hall : ∀ c ∈ t, d c = false) (hx : d x = true) :
    strtok1 d (t ++ x :: rest) = some (t, rest) := by
  cases t with
  | nil => exact absurd rfl ht
  | cons a t' =>
    have ha : d a = false := hall a (List.mem_cons_self a t')
    have hpos : ∀ c ∈ a :: t', (fun c => !(d c)) c = true := by
      intro c hc
      simp [hall c hc]
    have h1 : ((a :: t') ++ x :: rest).dropWhile d = a :: (t' ++ x :: rest) := by
      rw [List.cons_append]
      rw [List.dropWhile_cons_of_neg (by simp [ha])]
    have h2 : (a :: (t' ++ x :: rest)).takeWhile (fun c => !(d c)) = a :: t' := by
      rw [← List.cons_append]
      rw [List.takeWhile_append_of_pos hpos]
      rw [List.takeWhile_cons_of_neg (by simp [hx])]
      simp
    have h3 : ((a :: (t' ++ x :: rest)).dropWhile (fun c => !(d c))).drop 1 = rest := by
      rw [← List.cons_append]
      rw [List.dropWhile_append_of_pos hpos]
      rw [List.dropWhile_cons_of_neg (by simp [hx])]
      simp
    simp only [strtok1, h1, h2, h3]

theorem strtok1_last (d : Char → Bool) (t : List Char)
    (ht : t ≠ []) (hall : ∀ c ∈ t, d c = false) :
    strtok1 d t = some (t, []) := by
  cases t with
  | nil => exact absurd rfl ht
  | cons a t' =>
    have ha : d a = false := hall a (List.mem_cons_self a t')
    have hpos : ∀ c ∈ a :: t', (fun c => !(d c)) c = true := by
      intro c hc
      simp [hall c hc]
    have h1 : (a :: t').dropWhile d = a :: t' := by
      rw [List.dropWhile_cons_of_neg (by simp [ha])]
    have h2 : (a :: t').takeWhile (fun c => !(d c)) = a :: t' :=
      List.takeWhile_eq_self_iff.mpr hpos
    have h3 : ((a :: t').dropWhile (fun c => !(d c))).drop 1 = [] := by
      rw [List.dropWhile_eq_nil_iff.mpr hpos]
      simp
    simp only [strtok1, h1, h2, h3]

theorem strtok1_some_facts {d : Char → Bool} {s t r : List Char}
    (h : strtok1 d s = some (t, r)) :
    t ≠ [] ∧ (∀ c ∈ t, d c = false) ∧ (∀ c ∈ t, c ∈ s) ∧ (∀ c ∈ r, c ∈ s) ∧
      r.length < s.length := by
  unfold strtok1 at h
  rcases hdw : s.dropWhile d with _ | ⟨c, cs⟩
  · rw [hdw] at h
    simp at h
  · rw [hdw] at h
    simp only [Option.some.injEq, Prod.mk.injEq] at h
    obtain ⟨ht, hr⟩ := h
    have hsub : ∀ x ∈ c :: cs, x ∈ s := by
      intro x hx
      exact (List.dropWhile_sublist d).subset (hdw ▸ hx)
    have hdc : d c = false := dropWhile_head_false hdw
    refine ⟨?_, ?_, ?_, ?_, ?_⟩
    · rw [← ht, List.takeWhile_cons]
      simp [hdc]
    · intro x hx
      rw [← ht] at hx
      have := List.mem_takeWhile_imp hx
      simpa using this
    · intro x hx
      rw [← ht] at hx
      exact hsub x ((List.takeWhile_sublist _).subset hx)
    · intro x hx
      rw [← hr] at hx
      exact hsub x ((List.dropWhile_sublist _).subset ((List.drop_sublist _ _).subset hx))
    · have h1 : (c :: cs).length ≤ s.length := (hdw ▸ List.dropWhile_sublist d).length_le
      have h2 : r.length < (c :: cs).length := by
        rw [← hr]
        have h3 : ((c :: cs).dropWhile (fun x => !(d x))).length ≤ (c :: cs).length :=
          (List.dropWhile_sublist _).length_le
        have h5 := List.length_drop 1 ((c :: cs).dropWhile (fun x => !(d x)))
        by_cases hempty : (c :: cs).dropWhile (fun x => !(d x)) = []
        · rw [hempty]
          simp
        · have hposl : 0 < ((c :: cs).dropWhile (fun x => !(d x))).length :=
            List.length_pos.mpr hempty
          simp only [List.length_cons] at h3 ⊢
          omega
      omega

/-! ### Swap and swap-remove helper lemmas -/

theorem listSwap_length (l : List Nat) (i j : Nat) : (listSwap l i j).length = l.length := by
  simp [listSwap]

theorem swapcore_perm : ∀ (xs : List Nat) (k : Nat) (x : Nat), k < xs.length →
    (xs.getD k 0 :: xs.set k x).Perm (x :: xs) := by
  intro xs
  induction xs with
  | nil =>
    intro k x hk
    simp at hk
  | cons b t ih =>
    intro k x hk
    cases k with
    | zero => exact List.Perm.swap x b t
    | succ m =>
      have hm : m < t.length := by simpa using hk
      have step1 : (t.getD m 0 :: b :: t.set m x).Perm (b :: t.getD m 0 :: t.set m x) :=
        List.Perm.swap b (t.getD m 0) (t.set m x)
      have step2 : (b :: t.getD m 0 :: t.set m x).Perm (b :: x :: t) :=
        List.Perm.cons b (ih m x hm)
      have step3 : (b :: x :: t).Perm (x :: b :: t) := List.Perm.swap x b t
      simpa using (step1.trans step2).trans step3

theorem listSwap_perm : ∀ (l : List Nat) (i j : Nat), i < l.length → j < l.length →
    (listSwap l i j).Perm l := by
  intro l
  induction l with
  | nil =>
    intro i j hi hj
    simp at hi
  | cons a t ih =>
    intro i j hi hj
    cases i with
    | zero =>
      cases j with
      | zero => simp [listSwap]
      | succ m =>
        have hm : m < t.length := by simpa using hj
        have : listSwap (a :: t) 0 (m + 1) = t.getD m 0 :: t.set m a := by
          simp [listSwap]
        rw [this]
        exact swapcore_perm t m a hm
    | succ k =>
      cases j with
      | zero =>
        have hk : k < t.length := by simpa using hi
        have : listSwap (a :: t) (k + 1) 0 = t.getD k 0 :: t.set k a := by
          simp [listSwap]
        rw [this]
        exact swapcore_perm t k a hk
      | succ m =>
        have hk : k < t.length := by simpa using hi
        have hm : m < t.length := by simpa using hj
        have : listSwap (a :: t) (k + 1) (m + 1) = a :: listSwap t k m := by
          simp [listSwap]
        rw [this]
        exact List.Perm.cons a (ih k m hk hm)

theorem getD_listSwap_fst {l : List Nat} {i j : Nat} (hi : i < l.length) (hj : j < l.length)
    (hij : i ≠ j) : (listSwap l i j).getD i 0 = l.getD j 0 := by
  unfold listSwap
  rw [List.getD_eq_getElem?_getD, List.getElem?_set_ne hij.symm, List.getElem?_set_self
    (by simpa using hi), List.getD_eq_getElem?_getD, List.getElem?_eq_getElem hj]
  simp

theorem getD_listSwap_snd {l : List Nat} {i j : Nat} (hi : i < l.length) (hj : j < l.length) :
    (listSwap l i j).getD j 0 = l.getD i 0 := by
  unfold listSwap
  rw [List.getD_eq_getElem?_getD, List.getElem?_set_self (by simpa using hj),
    List.getD_eq_getElem?_getD, List.getElem?_eq_getElem hi]
  simp

theorem getD_listSwap_other {l : List Nat} {i j p : Nat} (hpi : p ≠ i) (hpj : p ≠ j) :
    (listSwap l i j).getD p 0 = l.getD p 0 := by
  unfold listSwap
  rw [List.getD_eq_getElem?_getD, List.getElem?_set_ne hpj.symm, List.getElem?_set_ne hpi.symm,
    List.getD_eq_getElem?_getD]

/-! ### Shuffle: Fisher–Yates permutes -/

theorem shuffleGo_perm (rnd : Nat → Nat) :
    ∀ (i : Nat) (arr : List Nat), i < arr.length → (shuffleGo rnd arr i).Perm arr := by
  intro i
  induction i with
  | zero =>
    intro arr hi
    exact List.Perm.refl arr
  | succ k ih =>
    intro arr hk
    have hj : rnd (k + 1) % (k + 1 + 1) < arr.length := by
      have := Nat.mod_lt (rnd (k + 1)) (y := k + 1 + 1) (by omega)
      omega
    have hswap := listSwap_perm arr (k + 1) (rnd (k + 1) % (k + 1 + 1)) hk hj
    have hlen : k < (listSwap arr (k + 1) (rnd (k + 1) % (k + 1 + 1))).length := by
      rw [listSwap_length]
      omega
    exact (ih _ hlen).trans hswap

theorem shuffle_perm (arr : List Nat) (rnd : Nat → Nat) : (shuffle arr rnd).Perm arr := by
  unfold shuffle
  cases arr with
  | nil => exact List.Perm.refl _
  | cons a t =>
    apply shuffleGo_perm
    simp

/-- Claim C8: for every `n` and every sequence of random draws, `shuffle`
applied to `[0, 1, ..., n-1]` (the Fisher–Yates loop: for `i` from
`n - 1` down to 1 swap positions `i` and `rnd i % (i + 1)`) returns a
permutation of `[0, n)`: `n` pairwise-distinct indices, each below `n`. -/
theorem shuffle_range_bijection (n : Nat) (rnd : Nat → Nat) :
    (shuffle (List.range n) rnd).length = n ∧
    (shuffle (List.range n) rnd).Nodup ∧
    (shuffle (List.range n) rnd).Perm (List.range n) ∧
    ∀ x ∈ shuffle (List.range n) rnd, x < n := by
  have hp := shuffle_perm (List.range n) rnd
  refine ⟨?_, ?_, hp, ?_⟩
  · rw [hp.length_eq, List.length_range]
  · exact hp.nodup_iff.mpr (List.nodup_range n)
  · intro x hx
    have := hp.mem_iff.mp hx
    simpa using this

theorem swapRemove_length {l : List Word} (h : l ≠ []) (i : Nat) :
    (swapRemove l i).length = l.length - 1 := by
  unfold swapRemove
  rcases hlast : l.getLast? with _ | b
  · exact absurd (List.getLast?_eq_none_iff.mp hlast) h
  · simp

theorem getD_swapRemove_other {l : List Word} {i j : Nat} (hj : j < l.length - 1)
    (hij : j ≠ i) : (swapRemove l i).getD j default = l.getD j default := by
  unfold swapRemove
  rcases hlast : l.getLast? with _ | b
  · rfl
  · have hlen : j < ((l.set i b).dropLast).length := by simp; omega
    rw [List.getD_eq_getElem?_getD, List.getElem?_eq_getElem hlen, List.getElem_dropLast,
      List.getElem_set_ne (by omega), List.getD_eq_getElem?_getD,
      List.getElem?_eq_getElem (by simp at hlen; omega)]

theorem getD_swapRemove_at {l : List Word} {i : Nat} (hi : i < l.length - 1) :
    (swapRemove l i).getD i default = l.getD (l.length - 1) default := by
  unfold swapRemove
  rcases hlast : l.getLast? with _ | b
  · exact absurd (List.getLast?_eq_none_iff.mp hlast) (by intro he; rw [he] at hi; simp at hi)
  · have hb : l.getD (l.length - 1) default = b := by
      rw [List.getD_eq_getElem?_getD, ← List.getLast?_eq_getElem?, hlast]
      simp
    have hlen : i < ((l.set i b).dropLast).length := by simp; omega
    rw [List.getD_eq_getElem?_getD, List.getElem?_eq_getElem hlen, List.getElem_dropLast,
      List.getElem_set_self (by simp at hlen ⊢; omega), hb]
    simp

theorem swapRemove_perm_eraseIdx :
    ∀ (l : List Word) (i : Nat), i < l.length → (swapRemove l i).Perm (l.eraseIdx i) := by
  intro l
  induction l with
  | nil =>
    intro i hi
    simp at hi
  | cons x xs ih =>
    intro i hi
    cases xs with
    | nil =>
      have hi0 : i = 0 := by simp at hi; omega
      subst hi0
      simp [swapRemove]
    | cons y ys =>
      rcases hb : (y :: ys).getLast? with _ | b
      · simp at hb
      · have hbx : (x :: y :: ys).getLast? = some b := by rw [List.getLast?_cons_cons, hb]
        cases i with
        | zero =>
          have hdrop : ((x :: y :: ys).set 0 b).dropLast = b :: (y :: ys).dropLast := by
            simp [List.set_cons_zero, List.dropLast_cons_of_ne_nil]
          have hsplit : (y :: ys).dropLast ++ [b] = y :: ys :=
            List.dropLast_append_getLast? b (by simp [hb])
          simp only [swapRemove, hbx, hdrop, List.eraseIdx_cons_zero]
          calc (b :: (y :: ys).dropLast).Perm ((y :: ys).dropLast ++ [b]) :=
                (List.perm_append_singleton b _).symm
            _ = y :: ys := hsplit
        | succ k =>
          have hk : k < (y :: ys).length := by simpa using hi
          have hset : (x :: y :: ys).set (k + 1) b = x :: (y :: ys).set k b := rfl
          have hdrop : (x :: (y :: ys).set k b).dropLast = x :: ((y :: ys).set k b).dropLast := by
            apply List.dropLast_cons_of_ne_nil
            simp
          have hrec := ih k hk
          have hrw : swapRemove (y :: ys) k = ((y :: ys).set k b).dropLast := by
            simp [swapRemove, hb]
          simp only [swapRemove, hbx, hset, hdrop, List.eraseIdx_cons_succ]
          exact List.Perm.cons x (hrw ▸ hrec)

theorem getD_mem_eraseIdx {l : List Word} {i j : Nat} (hj : j < l.length) (hij : j ≠ i) :
    l.getD j default ∈ l.eraseIdx i := by
  rw [List.eraseIdx_eq_take_drop_succ]
  rcases Nat.lt_or_ge j i with hlt | hge
  · apply List.mem_append_left
    have hjt : j < (l.take i).length := by simp; omega
    have : (l.take i)[j] = l[j] := List.getElem_take ..
    rw [List.getD_eq_getElem?_getD, List.getElem?_eq_getElem hj]
    simpa [this] using List.getElem_mem hjt
  · have hgt : i < j := by omega
    apply List.mem_append_right
    have hjd : j - (i + 1) < (l.drop (i + 1)).length := by simp; omega
    have hb : (i + 1) + (j - (i + 1)) < l.length := by omega
    have : (l.drop (i + 1))[j - (i + 1)] = l[(i + 1) + (j - (i + 1))] :=
      List.getElem_drop ..
    rw [List.getD_eq_getElem?_getD, List.getElem?_eq_getElem hj]
    have hidx : (i + 1) + (j - (i + 1)) = j := by omega
    simp only [Option.getD_some]
    have hmem := List.getElem_mem hjd
    rw [this] at hmem
    simpa [hidx] using hmem

/-- Claim C5: for a non-empty store and a valid index `i`, swap-remove
deletion overwrites slot `i` with the entry of the last occupied slot,
shrinks the entry count by exactly one, leaves every other surviving
slot (and the folder list) untouched, and the surviving entries are
exactly the original ones with the `i`-th removed. -/
theorem deleteByIndex_spec (s : Store) (i : Nat) (h0 : s.library ≠ [])
    (hi : i < s.library.length) :
    (deleteByIndex s i).library.length = s.library.length - 1 ∧
    (∀ j, j < s.library.length - 1 → j ≠ i →
      (deleteByIndex s i).library.getD j default = s.library.getD j default) ∧
    (i < s.library.length - 1 →
      (deleteByIndex s i).library.getD i default =
        s.library.getD (s.library.length - 1) default) ∧
    (deleteByIndex s i).library.Perm (s.library.eraseIdx i) ∧
    (deleteByIndex s i).folderList = s.folderList := by
  refine ⟨swapRemove_length h0 i, ?_, ?_, swapRemove_perm_eraseIdx s.library i hi, rfl⟩
  · intro j hj hij
    exact getD_swapRemove_other hj hij
  · intro hlt
    exact getD_swapRemove_at hlt

/-- Witness for C5 at a concrete two-entry store: deleting index 0 moves
the last entry into slot 0 and shrinks the store to one entry. -/
theorem deleteByIndex_spec_witness :
    (deleteByIndex ⟨[⟨"a".data, "x".data, "f".data, 0⟩, ⟨"b".data, "y".data, "g".data, 2⟩], []⟩
        0).library.length = 1 ∧
    (deleteByIndex ⟨[⟨"a".data, "x".data, "f".data, 0⟩, ⟨"b".data, "y".data, "g".data, 2⟩], []⟩
        0).library.getD 0 default = ⟨"b".data, "y".data, "g".data, 2⟩ := by
  have h := deleteByIndex_spec
    ⟨[⟨"a".data, "x".data, "f".data, 0⟩, ⟨"b".data, "y".data, "g".data, 2⟩], []⟩ 0
    (by decide) (by decide)
  exact ⟨h.1, by rw [h.2.2.1 (by decide)]; decide⟩

/-! ### deleteWord: first match only -/

theorem getD_of_lt {α : Type} (l : List α) (n : Nat) (d : α) (h : n < l.length) :
    l.getD n d = l[n] := by
  rw [List.getD_eq_getElem?_getD, List.getElem?_eq_getElem h]
  rfl

/-- Claim C9: `deleteWord` removes at most one entry per call: the entry
at the *first* storage index whose english equals the lower-cased
target; every other entry, including later entries with the same
english, stays in the store with unchanged content (the last entry may
merely move to the freed slot). -/
theorem deleteWord_first_match (s : Store) (tIn : List Char) (i : Nat)
    (hf : s.library.findIdx? (fun w => decide (w.english = toLowerEN (inputLineTrunc tIn)))
      = some i)
    (hne : s.library ≠ [])
    (hend : toLowerEN (inputLineTrunc tIn) ≠ "end".data) :
    (deleteWord s tIn).folderList = s.folderList ∧
    (deleteWord s tIn).library.length = s.library.length - 1 ∧
    (deleteWord s tIn).library.Perm (s.library.eraseIdx i) ∧
    (s.library.getD i default).english = toLowerEN (inputLineTrunc tIn) ∧
    (∀ j, j < i → (s.library.getD j default).english ≠ toLowerEN (inputLineTrunc tIn)) ∧
    (∀ j, j < s.library.length → j ≠ i →
      s.library.getD j default ∈ (deleteWord s tIn).library) := by
  obtain ⟨hi, hpi, hprior⟩ := List.findIdx?_eq_some_iff_getElem.mp hf
  have hdel : deleteWord s tIn = deleteByIndex s i := by
    unfold deleteWord
    rw [if_neg hne, if_neg hend, hf]
  have hperm : (deleteByIndex s i).library.Perm (s.library.eraseIdx i) :=
    swapRemove_perm_eraseIdx s.library i hi
  rw [hdel]
  refine ⟨rfl, swapRemove_length hne i, hperm, ?_, ?_, ?_⟩
  · rw [getD_of_lt _ _ _ hi]
    exact of_decide_eq_true hpi
  · intro j hj
    have := hprior j hj
    rw [getD_of_lt _ _ _ (Nat.lt_trans hj hi)]
    simpa using this
  · intro j hj hij
    exact hperm.mem_iff.mpr (getD_mem_eraseIdx hj hij)

/-- Witness for C9: with two entries whose english is `x`, deleting `X`
(case-insensitively) removes only the first; the second survives. -/
theorem deleteWord_first_match_witness :
    (deleteWord ⟨[⟨"x".data, "1".data, "f".data, 0⟩, ⟨"x".data, "2".data, "g".data, 0⟩], []⟩
        "X".data).library.length = 1 ∧
    (⟨"x".data, "2".data, "g".data, 0⟩ : Word) ∈
      (deleteWord ⟨[⟨"x".data, "1".data, "f".data, 0⟩, ⟨"x".data, "2".data, "g".data, 0⟩], []⟩
        "X".data).library := by
  have h := deleteWord_first_match
    ⟨[⟨"x".data, "1".data, "f".data, 0⟩, ⟨"x".data, "2".data, "g".data, 0⟩], []⟩
    "X".data 0 (by decide) (by decide) (by decide)
  exact ⟨h.2.1, h.2.2.2.2.2 1 (by decide) (by decide)⟩

/-! ### Quiz rounds -/

/-- Claim C6: in a quiz round over a valid index, a case-insensitively
matching answer bumps only the score and leaves the store untouched,
while a mismatch bumps exactly that entry's error count (no other slot,
field or the folder list changes), scores nothing, and the test loop
continues with the next round either way (recording the miss). -/
theorem askQuestion_round (s : Store) (i sc : Nat) (a : List Char) (is : List Nat)
    (as : List (List Char)) (hi : i < s.library.length) :
    (toLowerEN a = (s.library.getD i default).english →
      askQuestion s i sc a = (s, sc + 1, true) ∧
      runTestGo s sc (i :: is) (a :: as) = runTestGo s (sc + 1) is as) ∧
    (toLowerEN a ≠ (s.library.getD i default).english →
      (askQuestion s i sc a).2.1 = sc ∧
      (askQuestion s i sc a).2.2 = false ∧
      (askQuestion s i sc a).1.folderList = s.folderList ∧
      (askQuestion s i sc a).1.library.length = s.library.length ∧
      (askQuestion s i sc a).1.library.getD i default =
        { s.library.getD i default with
            errorCount := (s.library.getD i default).errorCount + 1 } ∧
      (∀ j, j ≠ i →
        (askQuestion s i sc a).1.library.getD j default = s.library.getD j default) ∧
      runTestGo s sc (i :: is) (a :: as) =
        ((runTestGo (askQuestion s i sc a).1 sc is as).1,
         (runTestGo (askQuestion s i sc a).1 sc is as).2.1,
         i :: (runTestGo (askQuestion s i sc a).1 sc is as).2.2)) := by
  constructor
  · intro hmatch
    have hq : askQuestion s i sc a = (s, sc + 1, true) := by
      simp only [askQuestion]
      rw [if_pos hmatch]
    refine ⟨hq, ?_⟩
    show (let q := askQuestion s i sc a
          let r := runTestGo q.1 q.2.1 is as
          (r.1, r.2.1, if q.2.2 then r.2.2 else i :: r.2.2)) = runTestGo s (sc + 1) is as
    rw [hq]
    rfl
  · intro hmiss
    have hq : askQuestion s i sc a =
        (⟨s.library.set i
            { s.library.getD i default with
                errorCount := (s.library.getD i default).errorCount + 1 },
          s.folderList⟩, sc, false) := by
      simp only [askQuestion]
      rw [if_neg hmiss]
    refine ⟨by rw [hq], by rw [hq], by rw [hq], by rw [hq]; simp, ?_, ?_, ?_⟩
    · rw [hq]
      show (s.library.set i _).getD i default = _
      rw [List.getD_eq_getElem?_getD, List.getElem?_set_self (by simpa using hi)]
      rfl
    · intro j hji
      rw [hq]
      show (s.library.set i _).getD j default = _
      rw [List.getD_eq_getElem?_getD, List.getElem?_set_ne (fun h => hji h.symm),
        List.getD_eq_getElem?_getD]
    · show (let q := askQuestion s i sc a
            let r := runTestGo q.1 q.2.1 is as
            (r.1, r.2.1, if q.2.2 then r.2.2 else i :: r.2.2)) = _
      rw [hq]
      rfl

/-- Witness for C6 at a one-entry store: answering `APPLE` for entry
`apple` scores without mutation; answering `wrong` bumps that entry's
error count to 1. -/
theorem askQuestion_round_witness :
    askQuestion ⟨[⟨"apple".data, "蘋果".data, "f".data, 0⟩], ["f".data]⟩ 0 0 "APPLE".data =
      (⟨[⟨"apple".data, "蘋果".data, "f".data, 0⟩], ["f".data]⟩, 1, true) ∧
    (askQuestion ⟨[⟨"apple".data, "蘋果".data, "f".data, 0⟩], ["f".data]⟩ 0 0
        "wrong".data).1.library.getD 0 default = ⟨"apple".data, "蘋果".data, "f".data, 1⟩ := by
  have h1 := askQuestion_round ⟨[⟨"apple".data, "蘋果".data, "f".data, 0⟩], ["f".data]⟩ 0 0
    "APPLE".data [] [] (by decide)
  have h2 := askQuestion_round ⟨[⟨"apple".data, "蘋果".data, "f".data, 0⟩], ["f".data]⟩ 0 0
    "wrong".data [] [] (by decide)
  constructor
  · exact (h1.1 (by decide)).1
  · rw [(h2.2 (by decide)).2.2.2.2.1]
    decide

/-! ### Parsing well-shaped and malformed lines -/

theorem serializeEntry_eq_mkLine4 (w : Word) :
    serializeEntry w = mkLine4 w.folder w.english w.chinese (intToStr w.errorCount) := by
  simp [serializeEntry, mkLine4]

theorem parseRecord?_four (f e c E : List Char)
    (hf : f ≠ []) (hfT : ∀ ch ∈ f, isTab ch = false)
    (he : e ≠ []) (heT : ∀ ch ∈ e, isTab ch = false)
    (hc : c ≠ []) (hcT : ∀ ch ∈ c, isTRN ch = false)
    (hE : E ≠ []) (hET : ∀ ch ∈ E, isTRN ch = false) :
    parseRecord? (mkLine4 f e c E) = some ⟨e, c, f, atoi E⟩ := by
  have h1 : strtok1 isTab (f ++ '\t' :: (e ++ '\t' :: (c ++ '\t' :: (E ++ ['\n'])))) =
      some (f, e ++ '\t' :: (c ++ '\t' :: (E ++ ['\n']))) :=
    strtok1_prefix isTab f '\t' _ hf hfT (by decide)
  have h2 : strtok1 isTab (e ++ '\t' :: (c ++ '\t' :: (E ++ ['\n']))) =
      some (e, c ++ '\t' :: (E ++ ['\n'])) :=
    strtok1_prefix isTab e '\t' _ he heT (by decide)
  have h3 : strtok1 isTRN (c ++ '\t' :: (E ++ ['\n'])) = some (c, E ++ ['\n']) :=
    strtok1_prefix isTRN c '\t' _ hc hcT (by decide)
  have h4 : strtok1 isTRN (E ++ '\n' :: ([] : List Char)) = some (E, []) :=
    strtok1_prefix isTRN E '\n' [] hE hET (by decide)
  have h4' : strtok1 isTRN (E ++ ['\n']) = some (E, []) := h4
  simp only [mkLine4, parseRecord?, h1, h2, h3, h4']

theorem parseRecord?_three (f e c : List Char)
    (hf : f ≠ []) (hfT : ∀ ch ∈ f, isTab ch = false)
    (he : e ≠ []) (heT : ∀ ch ∈ e, isTab ch = false)
    (hc : c ≠ []) (hcT : ∀ ch ∈ c, isTRN ch = false) :
    parseRecord? (mkLine3 f e c) = some ⟨e, c, f, 0⟩ := by
  have h1 : strtok1 isTab (f ++ '\t' :: (e ++ '\t' :: (c ++ ['\n']))) =
      some (f, e ++ '\t' :: (c ++ ['\n'])) :=
    strtok1_prefix isTab f '\t' _ hf hfT (by decide)
  have h2 : strtok1 isTab (e ++ '\t' :: (c ++ ['\n'])) = some (e, c ++ ['\n']) :=
    strtok1_prefix isTab e '\t' _ he heT (by decide)
  have h3 : strtok1 isTRN (c ++ '\n' :: ([] : List Char)) = some (c, []) :=
    strtok1_prefix isTRN c '\n' [] hc hcT (by decide)
  have h3' : strtok1 isTRN (c ++ ['\n']) = some (c, []) := h3
  have h4 : strtok1 isTRN ([] : List Char) = none := rfl
  simp only [mkLine3, parseRecord?, h1, h2, h3', h4]

theorem parseRecord?_three_noNL (f e c : List Char)
    (hf : f ≠ []) (hfT : ∀ ch ∈ f, isTab ch = false)
    (he : e ≠ []) (heT : ∀ ch ∈ e, isTab ch = false)
    (hc : c ≠ []) (hcT : ∀ ch ∈ c, isTRN ch = false) :
    parseRecord? (mkLineNoNL f e c) = some ⟨e, c, f, 0⟩ := by
  have h1 : strtok1 isTab (f ++ '\t' :: (e ++ '\t' :: c)) = some (f, e ++ '\t' :: c) :=
    strtok1_prefix isTab f '\t' _ hf hfT (by decide)
  have h2 : strtok1 isTab (e ++ '\t' :: c) = some (e, c) :=
    strtok1_prefix isTab e '\t' _ he heT (by decide)
  have h3 : strtok1 isTRN c = some (c, []) := strtok1_last isTRN c hc hcT
  have h4 : strtok1 isTRN ([] : List Char) = none := rfl
  simp only [mkLineNoNL, parseRecord?, h1, h2, h3, h4]

theorem tabTokensGo_congr :
    ∀ (f1 : Nat) (cs : List Char) (f2 : Nat), cs.length ≤ f1 → cs.length ≤ f2 →
      tabTokensGo f1 cs = tabTokensGo f2 cs := by
  intro f1
  induction f1 with
  | zero =>
    intro cs f2 h1 h2
    have hnil : cs = [] := by
      cases cs with
      | nil => rfl
      | cons a t => simp at h1
    subst hnil
    cases f2 with
    | zero => rfl
    | succ m => rfl
  | succ k ih =>
    intro cs f2 h1 h2
    cases f2 with
    | zero =>
      have hnil : cs = [] := by
        cases cs with
        | nil => rfl
        | cons a t => simp at h2
      subst hnil
      rfl
    | succ m =>
      rcases hs : strtok1 isTab cs with _ | ⟨t, r⟩
      · simp only [tabTokensGo, hs]
      · have hlt := (strtok1_some_facts hs).2.2.2.2
        have hrec : tabTokensGo k r = tabTokensGo m r := ih r m (by omega) (by omega)
        simp only [tabTokensGo, hs, hrec]

theorem tabTokens_cons {cs t r : List Char} (h : strtok1 isTab cs = some (t, r)) :
    tabTokens cs = t :: tabTokens r := by
  have hne : cs ≠ [] := by
    intro he
    rw [he] at h
    simp [strtok1] at h
  obtain ⟨k, hk⟩ : ∃ k, cs.length = k + 1 := by
    cases hlen : cs.length with
    | zero => exact absurd (List.length_eq_zero.mp hlen) hne
    | succ k => exact ⟨k, rfl⟩
  have hlt := (strtok1_some_facts h).2.2.2.2
  unfold tabTokens
  rw [hk]
  simp only [tabTokensGo, h]
  rw [tabTokensGo_congr k r r.length (by omega) (by omega)]

theorem tabTokens_pos_of_strtokTRN {cs : List Char} {p : List Char × List Char}
    (h : strtok1 isTRN cs = some p) : tabTokens cs ≠ [] := by
  rcases hs : strtok1 isTab cs with _ | ⟨t, r⟩
  · have hall := (strtok1_none_iff isTab cs).mp hs
    have hnone : strtok1 isTRN cs = none := by
      rw [strtok1_none_iff]
      intro c hc
      have htab := hall c hc
      simp only [isTab, beq_iff_eq] at htab
      simp [isTRN, htab]
    rw [hnone] at h
    simp at h
  · rw [tabTokens_cons hs]
    simp

theorem parseRecord?_none_of_lt3 {line : List Char} (h : (tabTokens line).length < 3) :
    parseRecord? line = none := by
  rcases h1 : strtok1 isTab line with _ | ⟨f, r1⟩
  · simp only [parseRecord?, h1]
  rcases h2 : strtok1 isTab r1 with _ | ⟨e, r2⟩
  · simp only [parseRecord?, h1, h2]
  rcases h3 : strtok1 isTRN r2 with _ | ⟨c, r3⟩
  · simp only [parseRecord?, h1, h2, h3]
  exfalso
  have ht : tabTokens line = f :: e :: tabTokens r2 := by
    rw [tabTokens_cons h1, tabTokens_cons h2]
  have hpos : tabTokens r2 ≠ [] := tabTokens_pos_of_strtokTRN h3
  rw [ht] at h
  simp only [List.length_cons] at h
  have : 0 < (tabTokens r2).length := List.length_pos.mpr hpos
  omega

/-- Claim C7: a line with fewer than three non-empty tab-separated parts
is silently skipped by `parseLine` — it adds no entry and the load goes
on with the remaining lines; on a well-shaped line a present fourth
field is parsed with `atoi` while its absence yields error count 0; in
particular the three-field example line loads one entry with error
count 0. -/
theorem parseLine_malformed_policy :
    (∀ (s : Store) (line : List Char) (rest : List (List Char)),
      (tabTokens line).length < 3 →
      parseLine s line = s ∧ loadLines s (line :: rest) = loadLines s rest) ∧
    (∀ (s : Store) (f e c E : List Char), s.library.length < WORD_MAX →
      f ≠ [] → (∀ ch ∈ f, isTab ch = false) →
      e ≠ [] → (∀ ch ∈ e, isTab ch = false) →
      c ≠ [] → (∀ ch ∈ c, isTRN ch = false) →
      E ≠ [] → (∀ ch ∈ E, isTRN ch = false) →
      parseLine s (mkLine4 f e c E) =
        ⟨s.library ++ [⟨e, c, f, atoi E⟩], updateFolderList s.folderList f⟩) ∧
    (∀ (s : Store) (f e c : List Char), s.library.length < WORD_MAX →
      f ≠ [] → (∀ ch ∈ f, isTab ch = false) →
      e ≠ [] → (∀ ch ∈ e, isTab ch = false) →
      c ≠ [] → (∀ ch ∈ c, isTRN ch = false) →
      parseLine s (mkLine3 f e c) =
        ⟨s.library ++ [⟨e, c, f, 0⟩], updateFolderList s.folderList f⟩) ∧
    parseLine emptyStore "ch1\tapple\t蘋果\n".data =
      ⟨[⟨"apple".data, "蘋果".data, "ch1".data, 0⟩], ["ch1".data]⟩ := by
  refine ⟨?_, ?_, ?_, by decide⟩
  · intro s line rest hless
    have hn := parseRecord?_none_of_lt3 hless
    have hskip : parseLine s line = s := by
      simp only [parseLine, hn]
      split <;> rfl
    refine ⟨hskip, ?_⟩
    simp [loadLines, hskip]
  · intro s f e c E hfull hf hfT he heT hc hcT hE hET
    have hp := parseRecord?_four f e c E hf hfT he heT hc hcT hE hET
    simp only [parseLine, hp, if_neg (by omega : ¬ WORD_MAX ≤ s.library.length)]
  · intro s f e c hfull hf hfT he heT hc hcT
    have hp := parseRecord?_three f e c hf hfT he heT hc hcT
    simp only [parseLine, hp, if_neg (by omega : ¬ WORD_MAX ≤ s.library.length)]

/-- Witness for C7: the malformed line `apple` (one part) is skipped,
and the example line `ch1\tapple\t蘋果\n` yields one entry with error
count 0. -/
theorem parseLine_malformed_policy_witness :
    parseLine emptyStore "apple\n".data = emptyStore ∧
    parseLine emptyStore "ch1\tapple\t蘋果\n".data =
      ⟨[⟨"apple".data, "蘋果".data, "ch1".data, 0⟩], ["ch1".data]⟩ := by
  refine ⟨?_, parseLine_malformed_policy.2.2.2⟩
  exact (parseLine_malformed_policy.1 emptyStore "apple\n".data [] (by decide)).1

/-! ### Decimal printing round-trips through atoi -/

theorem digitChar_toNat {d : Nat} (h : d < 10) : (digitChar d).toNat = 48 + d :=
  char_toNat_ofNat (by omega)

theorem isDigitC_digitChar {d : Nat} (h : d < 10) : isDigitC (digitChar d) = true := by
  simp only [isDigitC, digitChar_toNat h]
  simp
  omega

theorem natDigitsRevGo_digits :
    ∀ (fuel n : Nat), ∀ ch ∈ natDigitsRevGo fuel n, ∃ d, d < 10 ∧ ch = digitChar d := by
  intro fuel
  induction fuel with
  | zero =>
    intro n ch hch
    simp only [natDigitsRevGo, List.mem_singleton] at hch
    exact ⟨n % 10, Nat.mod_lt n (by omega), hch⟩
  | succ k ih =>
    intro n ch hch
    simp only [natDigitsRevGo] at hch
    by_cases hn : n < 10
    · rw [if_pos hn] at hch
      simp only [List.mem_singleton] at hch
      exact ⟨n, hn, hch⟩
    · rw [if_neg hn] at hch
      rcases List.mem_cons.mp hch with hh | hh
      · exact ⟨n % 10, Nat.mod_lt n (by omega), hh⟩
      · exact ih (n / 10) ch hh

theorem digitsValGo_append (A B : List Char) (acc : Nat)
    (h : ∀ c ∈ A, isDigitC c = true) :
    digitsValGo acc (A ++ B) = digitsValGo (digitsValGo acc A) B := by
  induction A generalizing acc with
  | nil => rfl
  | cons a A' ih =>
    have ha : isDigitC a = true := h a (List.mem_cons_self a A')
    simp only [List.cons_append, digitsValGo, ha, if_pos]
    exact ih _ (fun c hc => h c (List.mem_cons_of_mem a hc))

theorem digitsValGo_natDigits :
    ∀ (fuel n acc : Nat), n ≤ fuel →
      digitsValGo acc ((natDigitsRevGo fuel n).reverse) =
        acc * 10 ^ (natDigitsRevGo fuel n).length + n := by
  intro fuel
  induction fuel with
  | zero =>
    intro n acc hn
    have hn0 : n = 0 := by omega
    subst hn0
    simp only [natDigitsRevGo, List.reverse_singleton, digitsValGo,
      isDigitC_digitChar (by omega : 0 % 10 < 10), if_pos, digitChar_toNat
      (by omega : 0 % 10 < 10)]
    simp [digitsValGo]
  | succ k ih =>
    intro n acc hn
    by_cases hlt : n < 10
    · simp only [natDigitsRevGo, if_pos hlt, List.reverse_singleton, digitsValGo,
        isDigitC_digitChar hlt, if_pos, digitChar_toNat hlt]
      simp [digitsValGo]
    · have hstep : natDigitsRevGo (k + 1) n =
          digitChar (n % 10) :: natDigitsRevGo k (n / 10) := by
        simp [natDigitsRevGo, hlt]
      have hdiv : n / 10 ≤ k := by
        have h1 : n / 10 < n := Nat.div_lt_self (by omega) (by omega)
        omega
      have hdigits : ∀ c ∈ (natDigitsRevGo k (n / 10)).reverse, isDigitC c = true := by
        intro c hc
        obtain ⟨d, hd, rfl⟩ := natDigitsRevGo_digits k (n / 10) c (List.mem_reverse.mp hc)
        exact isDigitC_digitChar hd
      rw [hstep, List.reverse_cons, digitsValGo_append _ _ _ hdigits,
        ih (n / 10) acc hdiv]
      have hmod : n % 10 < 10 := Nat.mod_lt n (by omega)
      simp only [digitsValGo, isDigitC_digitChar hmod, if_pos, digitChar_toNat hmod,
        List.length_cons, List.length_reverse]
      have hrw : 48 + n % 10 - 48 = n % 10 := by omega
      rw [hrw]
      have hpow : 10 ^ ((natDigitsRevGo k (n / 10)).length + 1) =
          10 ^ (natDigitsRevGo k (n / 10)).length * 10 := by
        rw [Nat.pow_succ]
      rw [hpow]
      have := Nat.div_add_mod n 10
      ring_nf
      omega

theorem digitsValGo_natToStr (n : Nat) : digitsValGo 0 (natToStr n) = n := by
  have h := digitsValGo_natDigits n n 0 (Nat.le_refl n)
  simpa [natToStr] using h

theorem natToStr_ne_nil (n : Nat) : natToStr n ≠ [] := by
  unfold natToStr
  cases hf : natDigitsRevGo n n with
  | nil =>
    exfalso
    cases hn : n with
    | zero => rw [hn] at hf; simp [natDigitsRevGo] at hf
    | succ k =>
      rw [hn] at hf
      by_cases hk : k + 1 < 10 <;> simp [natDigitsRevGo, hk] at hf
  | cons a t => simp

theorem natToStr_digits {n : Nat} : ∀ c ∈ natToStr n, ∃ d, d < 10 ∧ c = digitChar d := by
  intro c hc
  exact natDigitsRevGo_digits n n c (List.mem_reverse.mp (by simpa [natToStr] using hc))

theorem char_beq_false {c d : Char} (h : c.toNat ≠ d.toNat) : (c == d) = false := by
  simp only [beq_eq_false_iff_ne, ne_eq]
  intro he
  exact h (congrArg Char.toNat he)

theorem digitChar_not_space {d : Nat} (h : d < 10) : isSpaceC (digitChar d) = false := by
  have ht := digitChar_toNat h
  simp only [isSpaceC]
  rw [char_beq_false (by rw [ht, show (' ').toNat = 32 by decide]; omega),
    char_beq_false (by rw [ht, show ('\t').toNat = 9 by decide]; omega),
    char_beq_false (by rw [ht, show ('\n').toNat = 10 by decide]; omega),
    char_beq_false (by rw [ht, show (Char.ofNat 11).toNat = 11 by decide]; omega),
    char_beq_false (by rw [ht, show (Char.ofNat 12).toNat = 12 by decide]; omega),
    char_beq_false (by rw [ht, show ('\r').toNat = 13 by decide]; omega)]
  rfl

theorem digitChar_not_TRN {d : Nat} (h : d < 10) : isTRN (digitChar d) = false := by
  have ht := digitChar_toNat h
  simp only [isTRN]
  rw [char_beq_false (by rw [ht, show ('\t').toNat = 9 by decide]; omega),
    char_beq_false (by rw [ht, show ('\r').toNat = 13 by decide]; omega),
    char_beq_false (by rw [ht, show ('\n').toNat = 10 by decide]; omega)]
  rfl

theorem digitChar_ne_minus {d : Nat} (h : d < 10) : (digitChar d == '-') = false :=
  char_beq_false (by rw [digitChar_toNat h, show ('-').toNat = 45 by decide]; omega)

theorem digitChar_ne_plus {d : Nat} (h : d < 10) : (digitChar d == '+') = false :=
  char_beq_false (by rw [digitChar_toNat h, show ('+').toNat = 43 by decide]; omega)

theorem atoi_natToStr (n : Nat) : atoi (natToStr n) = (n : Int) := by
  obtain ⟨c, cs, hccs⟩ := List.exists_cons_of_ne_nil (natToStr_ne_nil n)
  have hcmem : c ∈ natToStr n := by
    rw [hccs]
    exact List.mem_cons_self c cs
  obtain ⟨d, hd, hcd⟩ := natToStr_digits (n := n) c hcmem
  have hspace : isSpaceC c = false := by rw [hcd]; exact digitChar_not_space hd
  have hdrop : (natToStr n).dropWhile isSpaceC = c :: cs := by
    rw [hccs, List.dropWhile_cons_of_neg (by simp [hspace])]
  have hm : (c == '-') = false := by rw [hcd]; exact digitChar_ne_minus hd
  have hp : (c == '+') = false := by rw [hcd]; exact digitChar_ne_plus hd
  unfold atoi
  rw [hdrop]
  simp only [hm, hp, Bool.false_eq_true, if_false]
  rw [← hccs, digitsValGo_natToStr]

theorem atoi_intToStr (i : Int) : atoi (intToStr i) = i := by
  by_cases hneg : i < 0
  · have hm : ((-i).toNat : Int) = -i := Int.toNat_of_nonneg (by omega)
    have hstr : intToStr i = '-' :: natToStr (-i).toNat := by
      simp [intToStr, hneg]
    rw [hstr]
    obtain ⟨c, cs, hccs⟩ := List.exists_cons_of_ne_nil (natToStr_ne_nil (-i).toNat)
    have hcmem : c ∈ natToStr (-i).toNat := by
      rw [hccs]
      exact List.mem_cons_self c cs
    obtain ⟨d, hd, hcd⟩ := natToStr_digits c hcmem
    have hdrop : ('-' :: natToStr (-i).toNat).dropWhile isSpaceC =
        '-' :: natToStr (-i).toNat := by
      rw [List.dropWhile_cons_of_neg (by decide)]
    unfold atoi
    rw [hdrop]
    simp only [show (('-' : Char) == '-') = true by decide, if_true]
    rw [digitsValGo_natToStr]
    omega
  · have hstr : intToStr i = natToStr i.toNat := by
      simp [intToStr, hneg]
    rw [hstr, atoi_natToStr, Int.toNat_of_nonneg (by omega)]

theorem intToStr_ne_nil (i : Int) : intToStr i ≠ [] := by
  unfold intToStr
  split
  · simp
  · exact natToStr_ne_nil _

theorem intToStr_not_TRN (i : Int) : ∀ ch ∈ intToStr i, isTRN ch = false := by
  intro ch hch
  unfold intToStr at hch
  split at hch
  · rcases List.mem_cons.mp hch with hh | hh
    · rw [hh]
      decide
    · obtain ⟨d, hd, rfl⟩ := natToStr_digits ch hh
      exact digitChar_not_TRN hd
  · obtain ⟨d, hd, rfl⟩ := natToStr_digits ch hch
    exact digitChar_not_TRN hd

/-! ### Round-trip through the file format -/

/-- Fields that survive the file format: non-empty, tab-free and
newline-free folder and english, and a chinese field additionally free
of carriage returns (the third `strtok` also splits on `"\r\n"`). -/
abbrev serializableW (w : Word) : Prop :=
  w.folder ≠ [] ∧ (∀ ch ∈ w.folder, isTab ch = false) ∧ '\n' ∉ w.folder ∧
  w.english ≠ [] ∧ (∀ ch ∈ w.english, isTab ch = false) ∧ '\n' ∉ w.english ∧
  w.chinese ≠ [] ∧ (∀ ch ∈ w.chinese, isTRN ch = false)

/-- The serialized record of an entry, without its final newline. -/
def bodyOf (w : Word) : List Char :=
  w.folder ++ '\t' :: (w.english ++ '\t' :: (w.chinese ++ '\t' :: intToStr w.errorCount))

theorem serializeEntry_body (w : Word) : serializeEntry w = bodyOf w ++ '\n' :: [] := by
  simp [serializeEntry, bodyOf]

theorem bodyOf_no_nl {w : Word} (hw : serializableW w) : '\n' ∉ bodyOf w := by
  obtain ⟨-, -, hfn, -, -, hen, -, hcT⟩ := hw
  intro hmem
  simp only [bodyOf, List.mem_append, List.mem_cons] at hmem
  rcases hmem with hmem | hmem | hmem | hmem | hmem | hmem
  · exact hfn hmem
  · exact absurd hmem (by decide)
  · exact hen hmem
  · exact absurd hmem (by decide)
  · have := hcT '\n' hmem
    simp [isTRN] at this
  · rcases hmem with hmem | hmem
    · exact absurd hmem (by decide)
    · have := intToStr_not_TRN w.errorCount '\n' hmem
      simp [isTRN] at this

theorem splitLinesGo_chunk :
    ∀ (line : List Char), '\n' ∉ line → ∀ (cur rest : List Char),
      splitLinesGo cur (line ++ '\n' :: rest) =
        (cur.reverse ++ line ++ ['\n']) :: splitLinesGo [] rest := by
  intro line
  induction line with
  | nil =>
    intro hnl cur rest
    simp [splitLinesGo]
  | cons c line' ih =>
    intro hnl cur rest
    have hc : (c == '\n') = false := by
      simp only [beq_eq_false_iff_ne, ne_eq]
      intro he
      exact hnl (by rw [he]; exact List.mem_cons_self _ _)
    have hnl' : '\n' ∉ line' := fun h => hnl (List.mem_cons_of_mem c h)
    show splitLinesGo cur (c :: (line' ++ '\n' :: rest)) = _
    simp only [splitLinesGo, hc, Bool.false_eq_true, if_false]
    rw [ih hnl' (c :: cur) rest]
    simp

theorem splitLines_serialize (l : List Word) (hwf : ∀ w ∈ l, serializableW w) :
    splitLines ((l.map serializeEntry).flatten) = l.map serializeEntry := by
  induction l with
  | nil => rfl
  | cons w l' ih =>
    have hw := hwf w (List.mem_cons_self w l')
    have hrest : ∀ v ∈ l', serializableW v := fun v hv => hwf v (List.mem_cons_of_mem w hv)
    show splitLines (serializeEntry w ++ ((l'.map serializeEntry).flatten)) = _
    rw [serializeEntry_body w]
    unfold splitLines
    rw [List.append_assoc, List.singleton_append,
      splitLinesGo_chunk (bodyOf w) (bodyOf_no_nl hw) [] _]
    rw [List.map_cons]
    have hfix : ([] : List Char).reverse ++ bodyOf w ++ ['\n'] = serializeEntry w := by
      rw [serializeEntry_body w]
      simp
    rw [hfix]
    exact congrArg (serializeEntry w :: ·) (ih hrest)

theorem parseLine_serializeEntry {w : Word} (hw : serializableW w) (s : Store)
    (hlen : s.library.length < WORD_MAX) :
    parseLine s (serializeEntry w) =
      ⟨s.library ++ [w], updateFolderList s.folderList w.folder⟩ := by
  obtain ⟨hf, hfT, -, he, heT, -, hc, hcT⟩ := hw
  have hp : parseRecord? (serializeEntry w) = some w := by
    rw [serializeEntry_eq_mkLine4 w,
      parseRecord?_four w.folder w.english w.chinese (intToStr w.errorCount)
        hf hfT he heT hc hcT (intToStr_ne_nil _) (intToStr_not_TRN _),
      atoi_intToStr]
  simp only [parseLine, hp, if_neg (by omega : ¬ WORD_MAX ≤ s.library.length)]

theorem loadLines_serialized :
    ∀ (l : List Word) (s : Store), (∀ w ∈ l, serializableW w) →
      s.library.length + l.length ≤ WORD_MAX →
      (loadLines s (l.map serializeEntry)).library = s.library ++ l := by
  intro l
  induction l with
  | nil =>
    intro s hwf hlen
    simp [loadLines]
  | cons w l' ih =>
    intro s hwf hlen
    have hw := hwf w (List.mem_cons_self w l')
    have hlt : s.library.length < WORD_MAX := by
      simp only [List.length_cons] at hlen
      omega
    show (loadLines (parseLine s (serializeEntry w)) (l'.map serializeEntry)).library = _
    rw [parseLine_serializeEntry hw s hlt]
    rw [ih ⟨s.library ++ [w], updateFolderList s.folderList w.folder⟩
      (fun v hv => hwf v (List.mem_cons_of_mem w hv))
      (by simp only [List.length_append, List.length_cons] at hlen ⊢; simp; omega)]
    simp

/-- Claim C4 (amended): for a store within capacity whose entries all
have non-empty, tab- and newline-free folder and english fields and a
chinese field also free of carriage returns, deserializing the
serialized store reproduces the entry list exactly (hence the same
multiset of `(folder, english, chinese, errorCount)` tuples). -/
theorem deserialize_serialize (s : Store) (hlen : s.library.length ≤ WORD_MAX)
    (hwf : ∀ w ∈ s.library, serializableW w) :
    (deserialize (serialize s)).library = s.library := by
  unfold deserialize serialize
  rw [splitLines_serialize s.library hwf]
  rw [loadLines_serialized s.library emptyStore hwf (by simpa [emptyStore] using hlen)]
  rfl

/-- Witness for C4 at a one-entry store with a Chinese meaning and a
positive error count. -/
theorem deserialize_serialize_witness :
    (deserialize (serialize ⟨[⟨"apple".data, "蘋果".data, "ch1".data, 3⟩], ["ch1".data]⟩)).library
      = [⟨"apple".data, "蘋果".data, "ch1".data, 3⟩] :=
  deserialize_serialize ⟨[⟨"apple".data, "蘋果".data, "ch1".data, 3⟩], ["ch1".data]⟩
    (by decide) (by decide)

/-- Counterexample to C4 as stated: the store holding the single entry
`(folder "a", english "b", chinese "", errorCount 0)` has tab-free and
newline-free fields, yet the round trip turns its empty chinese field
into `"0"` (the error-count field slides into the chinese slot because
`strtok` skips empty fields), so the multiset of tuples changes. -/
theorem deserialize_serialize_counterexample :
    (∀ w ∈ ([⟨"b".data, [], "a".data, 0⟩] : List Word),
      '\t' ∉ w.english ∧ '\n' ∉ w.english ∧ '\t' ∉ w.chinese ∧ '\n' ∉ w.chinese ∧
      '\t' ∉ w.folder ∧ '\n' ∉ w.folder) ∧
    (deserialize (serialize ⟨[⟨"b".data, [], "a".data, 0⟩], []⟩)).library =
      [⟨"b".data, "0".data, "a".data, 0⟩] ∧
    (⟨"b".data, "0".data, "a".data, 0⟩ : Word) ≠ ⟨"b".data, [], "a".data, 0⟩ := by
  refine ⟨by decide, by decide, by decide⟩

/-! ### Loading past the capacity bound -/

theorem length_filterMap_of_some {α β : Type} {f : α → Option β} :
    ∀ {l : List α}, (∀ x ∈ l, (f x).isSome = true) → (l.filterMap f).length = l.length := by
  intro l
  induction l with
  | nil =>
    intro h
    rfl
  | cons a t ih =>
    intro h
    rcases hfa : f a with _ | b
    · have := h a (List.mem_cons_self a t)
      rw [hfa] at this
      simp at this
    · rw [List.filterMap_cons_some hfa]
      simp only [List.length_cons]
      rw [ih (fun x hx => h x (List.mem_cons_of_mem a hx))]

theorem loadCount_spec :
    ∀ (lines : List (List Char)) (s : Store) (c0 : Nat),
      (∀ line ∈ lines, (parseRecord? line).isSome = true) →
      s.library.length ≤ WORD_MAX →
      (lines.foldl
          (fun p line =>
            (parseLine p.1 line, p.2 + (if WORD_MAX ≤ p.1.library.length then 1 else 0)))
          (s, c0)).1.library =
        s.library ++ (lines.take (WORD_MAX - s.library.length)).filterMap parseRecord? ∧
      (lines.foldl
          (fun p line =>
            (parseLine p.1 line, p.2 + (if WORD_MAX ≤ p.1.library.length then 1 else 0)))
          (s, c0)).2 = c0 + (lines.length - (WORD_MAX - s.library.length)) := by
  intro lines
  induction lines with
  | nil =>
    intro s c0 h hlen
    simp
  | cons line rest ih =>
    intro s c0 h hlen
    have hrest : ∀ l ∈ rest, (parseRecord? l).isSome = true :=
      fun l hl => h l (List.mem_cons_of_mem line hl)
    by_cases hfull : WORD_MAX ≤ s.library.length
    · have hskip : parseLine s line = s := by
        simp only [parseLine, if_pos hfull]
      have hzero : WORD_MAX - s.library.length = 0 := by omega
      have hstep := ih s (c0 + 1) hrest hlen
      rw [List.foldl_cons, hskip, if_pos hfull]
      refine ⟨?_, ?_⟩
      · rw [hstep.1, hzero]
        simp
      · rw [hstep.2, hzero]
        simp only [List.length_cons]
        omega
    · have hw : (parseRecord? line).isSome = true := h line (List.mem_cons_self line rest)
      rcases hpl : parseRecord? line with _ | w
      · rw [hpl] at hw
        simp at hw
      · have hstep : parseLine s line =
            ⟨s.library ++ [w], updateFolderList s.folderList w.folder⟩ := by
          simp only [parseLine, hpl, if_neg hfull]
        have hlen' : (s.library ++ [w]).length ≤ WORD_MAX := by
          simp only [List.length_append, List.length_cons, List.length_nil]
          omega
        have hih := ih ⟨s.library ++ [w], updateFolderList s.folderList w.folder⟩ (c0 + 0)
          hrest hlen'
        rw [List.foldl_cons, hstep, if_neg hfull]
        have hk : WORD_MAX - s.library.length = (WORD_MAX - (s.library.length + 1)) + 1 := by
          omega
        refine ⟨?_, ?_⟩
        · rw [hih.1]
          have hlapp : (s.library ++ [w]).length = s.library.length + 1 := by simp
          try rw [hlapp]
          rw [hk, List.take_succ_cons, List.filterMap_cons_some hpl]
          simp
        · rw [hih.2]
          have hlapp : (s.library ++ [w]).length = s.library.length + 1 := by simp
          try rw [hlapp]
          simp only [List.length_cons]
          omega

/-- Claim C10 (amended): loading a file whose lines are all well-formed
records stores exactly the records of the first 1000 lines (so the
store never exceeds `WORD_MAX = 1000` entries) and the load runs to
completion over the remaining lines — but it is not silent: every line
processed while the store is full makes `isFull` print a store-full
error message, one per discarded line. -/
theorem loadLinesCount_overflow (lines : List (List Char))
    (h : ∀ line ∈ lines, (parseRecord? line).isSome = true) :
    (loadLinesCount emptyStore lines).1.library =
      (lines.take WORD_MAX).filterMap parseRecord? ∧
    (loadLinesCount emptyStore lines).1.library.length = min WORD_MAX lines.length ∧
    (loadLinesCount emptyStore lines).2 = lines.length - WORD_MAX ∧
    (WORD_MAX < lines.length → 0 < (loadLinesCount emptyStore lines).2) := by
  have hspec := loadCount_spec lines emptyStore 0 h (by simp [emptyStore])
  have h1 : (loadLinesCount emptyStore lines).1.library =
      (lines.take WORD_MAX).filterMap parseRecord? := by
    rw [show loadLinesCount emptyStore lines = lines.foldl
      (fun p line =>
        (parseLine p.1 line, p.2 + (if WORD_MAX ≤ p.1.library.length then 1 else 0)))
      (emptyStore, 0) from rfl]
    rw [hspec.1]
    simp [emptyStore]
  have h2 : (loadLinesCount emptyStore lines).2 = lines.length - WORD_MAX := by
    rw [show loadLinesCount emptyStore lines = lines.foldl
      (fun p line =>
        (parseLine p.1 line, p.2 + (if WORD_MAX ≤ p.1.library.length then 1 else 0)))
      (emptyStore, 0) from rfl]
    rw [hspec.2]
    simp [emptyStore]
  refine ⟨h1, ?_, h2, ?_⟩
  · rw [h1, length_filterMap_of_some (fun x hx => h x (List.take_subset _ _ hx)),
      List.length_take]
  · intro hgt
    rw [h2]
    omega

/-- Witness for C10 at a one-line well-formed file: everything is
stored and no store-full message is printed. -/
theorem loadLinesCount_overflow_witness :
    (loadLinesCount emptyStore ["a\tb\tc\n".data]).2 = 0 := by
  have h := loadLinesCount_overflow ["a\tb\tc\n".data] (by decide)
  simpa using h.2.2.1

/-- Counterexample to C10 as stated: a file of 1001 well-formed records
does store exactly the first 1000, but the discarding is not silent —
the 1001st line is processed with the store full, so `isFull` reports a
store-full error (the message counter ends at 1, not 0). -/
theorem loadLinesCount_not_silent :
    (∀ line ∈ List.replicate 1001 "a\tb\tc\n".data, (parseRecord? line).isSome = true) ∧
    (loadLinesCount emptyStore (List.replicate 1001 "a\tb\tc\n".data)).2 = 1 := by
  have hall : ∀ line ∈ List.replicate 1001 "a\tb\tc\n".data,
      (parseRecord? line).isSome = true := by
    intro line hline
    rw [List.eq_of_mem_replicate hline]
    decide
  refine ⟨hall, ?_⟩
  have hspec := loadCount_spec (List.replicate 1001 "a\tb\tc\n".data) emptyStore 0 hall
    (by simp [emptyStore])
  rw [show loadLinesCount emptyStore (List.replicate 1001 "a\tb\tc\n".data) =
    (List.replicate 1001 "a\tb\tc\n".data).foldl
      (fun p line =>
        (parseLine p.1 line, p.2 + (if WORD_MAX ≤ p.1.library.length then 1 else 0)))
      (emptyStore, 0) from rfl]
  rw [hspec.2]
  simp only [emptyStore, List.length_nil, List.length_replicate, WORD_MAX, Nat.sub_zero]

/-! ### AddWord: the whole input line is lower-cased before splitting -/

theorem strtok1_toLowerEN (d : Char → Bool) (hd : ∀ c, d (lowerChar c) = d c)
    (s : List Char) :
    strtok1 d (toLowerEN s) =
      (strtok1 d s).map (fun p => (toLowerEN p.1, toLowerEN p.2)) := by
  have hcomp : (d ∘ lowerChar) = d := funext hd
  have hncomp : ((fun x => !(d x)) ∘ lowerChar) = (fun x => !(d x)) := by
    funext c
    simp [Function.comp, hd c]
  have hdw : (toLowerEN s).dropWhile d = toLowerEN (s.dropWhile d) := by
    unfold toLowerEN
    rw [List.dropWhile_map, hcomp]
  unfold strtok1
  rw [hdw]
  rcases hcase : s.dropWhile d with _ | ⟨c, cs⟩
  · rfl
  · simp only [toLowerEN, List.map_cons, Option.map_some']
    have h1 : (lowerChar c :: List.map lowerChar cs).takeWhile (fun x => !(d x)) =
        List.map lowerChar ((c :: cs).takeWhile (fun x => !(d x))) := by
      rw [show (lowerChar c :: List.map lowerChar cs) = List.map lowerChar (c :: cs) from rfl,
        List.takeWhile_map, hncomp]
    have h2 : ((lowerChar c :: List.map lowerChar cs).dropWhile (fun x => !(d x))).drop 1 =
        List.map lowerChar (((c :: cs).dropWhile (fun x => !(d x))).drop 1) := by
      rw [show (lowerChar c :: List.map lowerChar cs) = List.map lowerChar (c :: cs) from rfl,
        List.dropWhile_map, hncomp, List.map_drop]
    rw [h1, h2]

/-- Claim C3 (amended): a successful `AddWord` iteration stores the
english and folder lower-cased — but the chinese text is *not* passed
through unchanged: `AddWord` lower-cases the whole input line before
splitting it, so the stored chinese is the ASCII-lower-cased form of
the entered chinese (genuine Chinese characters are unaffected, ASCII
letters inside the chinese field are not).  The new entry starts with
error count 0 and its folder is registered. -/
theorem addWordIter_normalizes (s : Store) (f rawIn : List Char)
    (enR chR rest rest2 : List Char)
    (h1 : strtok1 isTab (inputLineTrunc rawIn) = some (enR, rest))
    (h2 : strtok1 isTab rest = some (chR, rest2))
    (hcr : '\r' ∉ chR)
    (hfne : f ≠ []) (hfT : ∀ ch ∈ f, isTab ch = false)
    (hfull : s.library.length < WORD_MAX)
    (hend : toLowerEN (inputLineTrunc rawIn) ≠ "end".data)
    (hdup : s.library.any (fun w =>
      decide (w.folder = f ∧ w.english = toLowerEN enR ∧ w.chinese = toLowerEN chR))
      = false) :
    addWordIter s f rawIn =
      ⟨s.library ++ [⟨toLowerEN enR, toLowerEN chR, f, 0⟩],
        updateFolderList s.folderList f⟩ := by
  obtain ⟨hen_ne, hen_tab, hen_sub, hrest_sub, -⟩ := strtok1_some_facts h1
  obtain ⟨hch_ne, hch_tab, hch_sub, -, -⟩ := strtok1_some_facts h2
  have hs1 : strtok1 isTab (toLowerEN (inputLineTrunc rawIn)) =
      some (toLowerEN enR, toLowerEN rest) := by
    rw [strtok1_toLowerEN isTab isTab_lowerChar, h1]
    rfl
  have hs2 : strtok1 isTab (toLowerEN rest) = some (toLowerEN chR, toLowerEN rest2) := by
    rw [strtok1_toLowerEN isTab isTab_lowerChar, h2]
    rfl
  have hlen_ne : toLowerEN enR ≠ [] := by
    intro he
    exact hen_ne (List.map_eq_nil_iff.mp he)
  have hlch_ne : toLowerEN chR ≠ [] := by
    intro he
    exact hch_ne (List.map_eq_nil_iff.mp he)
  have hlen_tab : ∀ ch ∈ toLowerEN enR, isTab ch = false := by
    intro ch hch
    obtain ⟨c0, hc0, rfl⟩ := List.mem_map.mp hch
    rw [isTab_lowerChar]
    exact hen_tab c0 hc0
  have hnl : ∀ c ∈ inputLineTrunc rawIn, c ≠ '\n' := by
    intro c hc
    have := List.mem_takeWhile_imp hc
    simpa using this
  have hlch_trn : ∀ ch ∈ toLowerEN chR, isTRN ch = false := by
    intro ch hch
    obtain ⟨c0, hc0, rfl⟩ := List.mem_map.mp hch
    rw [isTRN_lowerChar]
    have htab : (c0 == '\t') = false := by
      have := hch_tab c0 hc0
      simpa [isTab] using this
    have hcr0 : (c0 == '\r') = false := by
      simp only [beq_eq_false_iff_ne, ne_eq]
      intro he
      exact hcr (he ▸ hc0)
    have hnl0 : (c0 == '\n') = false := by
      simp only [beq_eq_false_iff_ne, ne_eq]
      intro he
      exact hnl c0 (hrest_sub c0 (hch_sub c0 hc0)) he
    simp [isTRN, htab, hcr0, hnl0]
  have hparse : parseRecord? (mkLineNoNL f (toLowerEN enR) (toLowerEN chR)) =
      some ⟨toLowerEN enR, toLowerEN chR, f, 0⟩ :=
    parseRecord?_three_noNL f (toLowerEN enR) (toLowerEN chR)
      hfne hfT hlen_ne hlen_tab hlch_ne hlch_trn
  unfold addWordIter
  rw [if_neg (by omega : ¬ WORD_MAX ≤ s.library.length)]
  simp only [hs1, hs2, if_neg hend, hdup, Bool.false_eq_true, if_false]
  simp only [parseLine, hparse, if_neg (by omega : ¬ WORD_MAX ≤ s.library.length)]

/-- Witness for C3: adding `apple` with chinese `好` in folder `ch1`
stores the lower-cased english and the chinese untouched. -/
theorem addWordIter_normalizes_witness :
    addWordIter emptyStore "ch1".data "Apple\t好".data =
      ⟨[⟨"apple".data, "好".data, "ch1".data, 0⟩], ["ch1".data]⟩ := by
  have h := addWordIter_normalizes emptyStore "ch1".data "Apple\t好".data
    "Apple".data "好".data "好".data [] (by decide) (by decide) (by decide)
    (by decide) (by decide) (by decide) (by decide) (by decide)
  rw [h]
  decide

/-- Counterexample to C3 as stated: the chinese field is not passed
through unchanged — adding `apple` with the chinese text `ABC` stores
chinese `abc`, because `AddWord` lower-cases the whole raw line before
splitting it at the tab. -/
theorem addWordIter_lowercases_chinese :
    (stepOp emptyStore (.add "ch1".data "apple\tABC".data)).library =
      [⟨"apple".data, "abc".data, "ch1".data, 0⟩] ∧
    ("abc".data : List Char) ≠ "ABC".data := by
  refine ⟨by decide, by decide⟩

/-! ### The folder index across operation sequences -/

theorem updateFolderList_nodup {fl : List (List Char)} (h : fl.Nodup) (name : List Char) :
    (updateFolderList fl name).Nodup := by
  unfold updateFolderList
  by_cases hmem : name ∈ fl
  · rw [if_pos hmem]
    exact h
  · rw [if_neg hmem]
    split
    · simp [List.nodup_append, h, hmem]
    · exact h

theorem subset_updateFolderList (fl : List (List Char)) (name : List Char) :
    fl ⊆ updateFolderList fl name := by
  unfold updateFolderList
  split
  · exact fun x hx => hx
  split
  · exact fun x hx => List.mem_append_left _ hx
  · exact fun x hx => hx

theorem length_le_updateFolderList (fl : List (List Char)) (name : List Char) :
    fl.length ≤ (updateFolderList fl name).length := by
  unfold updateFolderList
  split
  · exact Nat.le_refl _
  split
  · simp
  · exact Nat.le_refl _

theorem mem_updateFolderList_self {fl : List (List Char)} {name : List Char}
    (h : (updateFolderList fl name).length < FOLDER_MAX) :
    name ∈ updateFolderList fl name := by
  unfold updateFolderList at h ⊢
  by_cases hmem : name ∈ fl
  · rw [if_pos hmem] at h ⊢
    exact hmem
  · rw [if_neg hmem] at h ⊢
    by_cases hlen : fl.length < FOLDER_MAX
    · rw [if_pos hlen] at h ⊢
      exact List.mem_append_right _ (List.mem_singleton.mpr rfl)
    · rw [if_neg hlen] at h
      omega

/-- The FolderIndex invariant: no duplicate names, and every stored
entry's folder is registered as long as the index is below capacity. -/
def FolderInv (s : Store) : Prop :=
  s.folderList.Nodup ∧
  ∀ w ∈ s.library, s.folderList.length < FOLDER_MAX → w.folder ∈ s.folderList

theorem folderInv_parseLine {s : Store} (line : List Char) (hs : FolderInv s) :
    FolderInv (parseLine s line) := by
  unfold parseLine
  split
  · exact hs
  rcases hp : parseRecord? line with _ | w
  · exact hs
  constructor
  · exact updateFolderList_nodup hs.1 w.folder
  · intro v hv hlen
    rcases List.mem_append.mp hv with hv | hv
    · have hfl : s.folderList.length < FOLDER_MAX :=
        Nat.lt_of_le_of_lt (length_le_updateFolderList _ _) hlen
      exact subset_updateFolderList _ _ (hs.2 v hv hfl)
    · rw [List.mem_singleton.mp hv]
      exact mem_updateFolderList_self hlen

theorem folderInv_register {s : Store} (g : List Char) (hs : FolderInv s) :
    FolderInv ⟨s.library, updateFolderList s.folderList g⟩ := by
  constructor
  · exact updateFolderList_nodup hs.1 g
  · intro v hv hlen
    have hfl : s.folderList.length < FOLDER_MAX :=
      Nat.lt_of_le_of_lt (length_le_updateFolderList _ _) hlen
    exact subset_updateFolderList _ _ (hs.2 v hv hfl)

theorem addWordIter_cases (s : Store) (f raw : List Char) :
    addWordIter s f raw = s ∨ ∃ line, addWordIter s f raw = parseLine s line := by
  simp only [addWordIter]
  split
  · exact Or.inl rfl
  split
  · exact Or.inl rfl
  split
  · exact Or.inl rfl
  split
  · exact Or.inl rfl
  split
  · exact Or.inl rfl
  · exact Or.inr ⟨_, rfl⟩

theorem mem_swapRemove_subset {l : List Word} {i : Nat} {v : Word}
    (hv : v ∈ swapRemove l i) : v ∈ l := by
  unfold swapRemove at hv
  rcases hlast : l.getLast? with _ | b
  · rw [hlast] at hv
    exact hv
  · rw [hlast] at hv
    have hv' : v ∈ l.set i b := (List.dropLast_sublist _).subset hv
    rcases List.mem_or_eq_of_mem_set hv' with h | h
    · exact h
    · obtain ⟨ys, hys⟩ := List.getLast?_eq_some_iff.mp hlast
      rw [h, hys]
      exact List.mem_append_right _ (List.mem_singleton.mpr rfl)

theorem folderInv_deleteWord {s : Store} (t : List Char) (hs : FolderInv s) :
    FolderInv (deleteWord s t) := by
  simp only [deleteWord]
  split
  · exact hs
  split
  · exact hs
  split
  · exact hs
  · constructor
    · exact hs.1
    · intro v hv hlen
      exact hs.2 v (mem_swapRemove_subset hv) hlen

theorem folderInv_quiz {s : Store} (i : Nat) (a : List Char) (hs : FolderInv s) :
    FolderInv (askQuestion s i 0 a).1 := by
  simp only [askQuestion]
  split
  · exact hs
  · constructor
    · exact hs.1
    · intro v hv hlen
      by_cases hi : i < s.library.length
      · rcases List.mem_or_eq_of_mem_set hv with h | h
        · exact hs.2 v h hlen
        · have hmem : s.library.getD i default ∈ s.library := by
            rw [getD_of_lt _ _ _ hi]
            exact List.getElem_mem hi
          have : v.folder = (s.library.getD i default).folder := by
            rw [h]
          rw [this]
          exact hs.2 _ hmem hlen
      · rw [List.set_eq_of_length_le (by omega)] at hv
        exact hs.2 v hv hlen

theorem folderInv_step (s : Store) (op : Op) (hs : FolderInv s) :
    FolderInv (stepOp s op) := by
  cases op with
  | load line => exact folderInv_parseLine line hs
  | add fIn raw =>
    show FolderInv (if toLowerEN (inputLineTrunc fIn) = [] then s else _)
    split
    · exact hs
    · have hreg := folderInv_register (toLowerEN (inputLineTrunc fIn)) hs
      rcases addWordIter_cases ⟨s.library, updateFolderList s.folderList
        (toLowerEN (inputLineTrunc fIn))⟩ (toLowerEN (inputLineTrunc fIn)) raw with h | ⟨line, h⟩
      · rw [h]
        exact hreg
      · rw [h]
        exact folderInv_parseLine line hreg
  | delete t => exact folderInv_deleteWord t hs
  | quiz i a => exact folderInv_quiz i a hs

theorem folderInv_runOps : ∀ (ops : List Op) (s : Store), FolderInv s →
    FolderInv (runOps s ops) := by
  intro ops
  induction ops with
  | nil =>
    intro s hs
    exact hs
  | cons op rest ih =>
    intro s hs
    exact ih (stepOp s op) (folderInv_step s op hs)

/-- Claim C2 (amended): after any sequence of operations starting from
the empty store the folder index holds no duplicates, and as long as it
is below its 50-name capacity every stored entry's folder is registered
in it (the registration happens in the same step as the insertion).
The index is however not *exactly* the set of folders present:
deletion never unregisters a name. -/
theorem runOps_folderIndex (ops : List Op) :
    (runOps emptyStore ops).folderList.Nodup ∧
    ∀ w ∈ (runOps emptyStore ops).library,
      (runOps emptyStore ops).folderList.length < FOLDER_MAX →
        w.folder ∈ (runOps emptyStore ops).folderList := by
  have h := folderInv_runOps ops emptyStore ⟨List.nodup_nil, by simp [emptyStore]⟩
  exact ⟨h.1, h.2⟩

/-- Witness for C2: after loading one record the entry's folder is in
the index. -/
theorem runOps_folderIndex_witness :
    ("a".data : List Char) ∈ (runOps emptyStore [.load "a\tb\tc\n".data]).folderList := by
  have h := runOps_folderIndex [.load "a\tb\tc\n".data]
  have hm := h.2 ⟨"b".data, "c".data, "a".data, 0⟩ (by decide) (by decide)
  exact hm

/-- Counterexample to C2 as stated: deleting the only entry of folder
`a` leaves `a` registered in the folder index although no stored entry
carries it any more, so the index is not exactly the set of folders
present among the entries. -/
theorem folderIndex_stale_after_delete :
    (runOps emptyStore [.load "a\tb\tc\n".data, .delete "b".data]).library = [] ∧
    (runOps emptyStore [.load "a\tb\tc\n".data, .delete "b".data]).folderList = ["a".data] ∧
    ¬ (∀ n ∈ (runOps emptyStore [.load "a\tb\tc\n".data, .delete "b".data]).folderList,
        ∃ w ∈ (runOps emptyStore [.load "a\tb\tc\n".data, .delete "b".data]).library,
          w.folder = n) := by
  refine ⟨by decide, by decide, by decide⟩

/-! ### The error ledger's selection sort -/

theorem innerMax_foldl_spec (ec : Nat → Int) (idx : List Nat) (g : Nat → Nat → Nat)
    (hg : ∀ m j, g m j = if ec (idx.getD m 0) < ec (idx.getD j 0) then j else m) :
    ∀ (J : List Nat) (m0 : Nat),
      (J.foldl g m0 = m0 ∨ J.foldl g m0 ∈ J) ∧
      ec (idx.getD m0 0) ≤ ec (idx.getD (J.foldl g m0) 0) ∧
      (∀ j ∈ J, ec (idx.getD j 0) ≤ ec (idx.getD (J.foldl g m0) 0)) := by
  intro J
  induction J with
  | nil =>
    intro m0
    exact ⟨Or.inl rfl, le_refl _, by simp⟩
  | cons j0 J' ih =>
    intro m0
    have hstep : (j0 :: J').foldl g m0 = J'.foldl g (g m0 j0) := rfl
    have hm1 := ih (g m0 j0)
    have hle1 : ec (idx.getD m0 0) ≤ ec (idx.getD (g m0 j0) 0) := by
      rw [hg]
      split
      · exact le_of_lt (by assumption)
      · exact le_refl _
    have hlej0 : ec (idx.getD j0 0) ≤ ec (idx.getD (g m0 j0) 0) := by
      rw [hg]
      split
      · exact le_refl _
      · omega
    refine ⟨?_, ?_, ?_⟩
    · rw [hstep]
      rcases hm1.1 with h | h
      · rw [h, hg]
        split
        · exact Or.inr (List.mem_cons_self j0 J')
        · exact Or.inl rfl
      · exact Or.inr (List.mem_cons_of_mem j0 h)
    · rw [hstep]
      exact le_trans hle1 hm1.2.1
    · intro j hj
      rw [hstep]
      rcases List.mem_cons.mp hj with h | h
      · rw [h]
        exact le_trans hlej0 hm1.2.1
      · exact hm1.2.2 j h

theorem innerMax_spec (ec : Nat → Int) (idx : List Nat) (i : Nat) (hi : i < idx.length) :
    i ≤ innerMax ec idx i ∧ innerMax ec idx i < idx.length ∧
    ∀ j, i ≤ j → j < idx.length →
      ec (idx.getD j 0) ≤ ec (idx.getD (innerMax ec idx i) 0) := by
  have hspec := innerMax_foldl_spec ec idx
    (fun m j => if ec (idx.getD m 0) < ec (idx.getD j 0) then j else m)
    (fun m j => rfl) (List.range' (i + 1) (idx.length - (i + 1))) i
  have hmem : ∀ x ∈ List.range' (i + 1) (idx.length - (i + 1)),
      i + 1 ≤ x ∧ x < idx.length := by
    intro x hx
    have := List.mem_range'_1.mp hx
    omega
  have hres : innerMax ec idx i = i ∨ innerMax ec idx i ∈
      List.range' (i + 1) (idx.length - (i + 1)) := hspec.1
  refine ⟨?_, ?_, ?_⟩
  · rcases hres with h | h
    · omega
    · have := (hmem _ h).1
      omega
  · rcases hres with h | h
    · omega
    · exact (hmem _ h).2
  · intro j hij hjlen
    rcases Nat.eq_or_lt_of_le hij with h | h
    · rw [← h]
      exact hspec.2.1
    · exact hspec.2.2 j (List.mem_range'_1.mpr (by omega))

theorem selSortGo_spec (ec : Nat → Int) :
    ∀ (fuel : Nat) (idx : List Nat) (i : Nat),
      idx.length ≤ i + 1 + fuel →
      (∀ p q, p < i → p < q → q < idx.length →
        ec (idx.getD q 0) ≤ ec (idx.getD p 0)) →
      (selSortGo ec idx i fuel).Perm idx ∧
      (∀ p q, p < q → q < (selSortGo ec idx i fuel).length →
        ec ((selSortGo ec idx i fuel).getD q 0) ≤
          ec ((selSortGo ec idx i fuel).getD p 0)) := by
  intro fuel
  induction fuel with
  | zero =>
    intro idx i hfuel H
    refine ⟨List.Perm.refl _, ?_⟩
    intro p q hpq hq
    simp only [selSortGo] at hq ⊢
    exact H p q (by omega) hpq hq
  | succ fuel ih =>
    intro idx i hfuel H
    by_cases hcont : i < idx.length - 1
    · have hi : i < idx.length := by omega
      have hm := innerMax_spec ec idx i hi
      set m := innerMax ec idx i with hmdef
      have hunfold : selSortGo ec idx i (fuel + 1) =
          selSortGo ec (if m ≠ i then listSwap idx i m else idx) (i + 1) fuel := by
        rw [selSortGo, if_pos hcont]
      set idx' := if m ≠ i then listSwap idx i m else idx with hidx'
      have hlen' : idx'.length = idx.length := by
        rw [hidx']
        split
        · exact listSwap_length idx i m
        · rfl
      have hperm' : idx'.Perm idx := by
        rw [hidx']
        split
        · exact listSwap_perm idx i m hi hm.2.1
        · exact List.Perm.refl _
      have hgetD_i : idx'.getD i 0 = idx.getD m 0 := by
        rw [hidx']
        split
        · exact getD_listSwap_fst hi hm.2.1 (by omega)
        · next hne => simp only [ne_eq, Decidable.not_not] at hne; rw [hne]
      have hgetD_m : idx'.getD m 0 = idx.getD i 0 := by
        rw [hidx']
        split
        · exact getD_listSwap_snd hi hm.2.1
        · next hne => simp only [ne_eq, Decidable.not_not] at hne; rw [hne]
      have hgetD_other : ∀ p, p ≠ i → p ≠ m → idx'.getD p 0 = idx.getD p 0 := by
        intro p hpi hpm
        rw [hidx']
        split
        · exact getD_listSwap_other hpi hpm
        · rfl
      have H' : ∀ p q, p < i + 1 → p < q → q < idx'.length →
          ec (idx'.getD q 0) ≤ ec (idx'.getD p 0) := by
        intro p q hp hpq hq
        rw [hlen'] at hq
        by_cases hpi : p < i
        · have hpne_i : p ≠ i := by omega
          have hpne_m : p ≠ m := by omega
          rw [hgetD_other p hpne_i hpne_m]
          by_cases hqi : q = i
          · rw [hqi, hgetD_i]
            exact H p m hpi (by omega) hm.2.1
          by_cases hqm : q = m
          · rw [hqm, hgetD_m]
            exact H p i hpi (by omega) hi
          · rw [hgetD_other q hqi hqm]
            exact H p q hpi hpq hq
        · have hpeq : p = i := by omega
          subst hpeq
          rw [hgetD_i]
          by_cases hqm : q = m
          · rw [hqm, hgetD_m]
            exact hm.2.2 p (le_refl p) hi
          · have hqi : q ≠ p := by omega
            rw [hgetD_other q hqi hqm]
            exact hm.2.2 q (by omega) hq
      have hrec := ih idx' (i + 1) (by omega) H'
      rw [hunfold]
      exact ⟨hrec.1.trans hperm', hrec.2⟩
    · have hunfold : selSortGo ec idx i (fuel + 1) = idx := by
        rw [selSortGo, if_neg hcont]
      rw [hunfold]
      refine ⟨List.Perm.refl _, ?_⟩
      intro p q hpq hq
      exact H p q (by omega) hpq hq

/-- Claim C1 (amended): `rankedEntries` returns exactly the indices of
entries with positive error count — a permutation of their
storage-order list — ordered non-increasing by error count.  (Ties are
*not* guaranteed to keep storage order; the swap of the selection sort
can reorder tied entries.) -/
theorem rankedEntries_spec (l : List Word) :
    (rankedEntries l).Perm (collectErrorIdx l) ∧
    (∀ p q, p < q → q < (rankedEntries l).length →
      ecOf l ((rankedEntries l).getD q 0) ≤ ecOf l ((rankedEntries l).getD p 0)) ∧
    (∀ k ∈ rankedEntries l, k < l.length ∧ 0 < ecOf l k) := by
  have h := selSortGo_spec (ecOf l) (collectErrorIdx l).length (collectErrorIdx l) 0
    (by omega) (by intro p q hp hpq hq; omega)
  have hre : rankedEntries l =
      selSortGo (ecOf l) (collectErrorIdx l) 0 (collectErrorIdx l).length := rfl
  refine ⟨hre ▸ h.1, hre ▸ h.2, ?_⟩
  intro k hk
  have hmem : k ∈ collectErrorIdx l := (hre ▸ h.1).mem_iff.mp hk
  have := List.mem_filter.mp hmem
  refine ⟨List.mem_range.mp this.1, of_decide_eq_true this.2⟩

/-- A three-entry library whose error counts are `[2, 2, 3]` in storage
order: the ledger's selection sort swaps the 3 to the front and thereby
reverses the two tied entries. -/
def ledgerLib : List Word :=
  [⟨"a".data, "x".data, "f".data, 2⟩, ⟨"b".data, "y".data, "f".data, 2⟩,
   ⟨"c".data, "z".data, "f".data, 3⟩]

/-- Witness for C1 at a library with error counts `[3, 0, 1]`: the
ledger is `[0, 2]`, sorted non-increasing, and index 2 has a positive
count. -/
theorem rankedEntries_spec_witness :
    ecOf [⟨"a".data, "x".data, "f".data, 3⟩, ⟨"b".data, "y".data, "f".data, 0⟩,
        ⟨"c".data, "z".data, "f".data, 1⟩]
      ((rankedEntries [⟨"a".data, "x".data, "f".data, 3⟩, ⟨"b".data, "y".data, "f".data, 0⟩,
        ⟨"c".data, "z".data, "f".data, 1⟩]).getD 1 0) ≤
      ecOf [⟨"a".data, "x".data, "f".data, 3⟩, ⟨"b".data, "y".data, "f".data, 0⟩,
        ⟨"c".data, "z".data, "f".data, 1⟩]
      ((rankedEntries [⟨"a".data, "x".data, "f".data, 3⟩, ⟨"b".data, "y".data, "f".data, 0⟩,
        ⟨"c".data, "z".data, "f".data, 1⟩]).getD 0 0) ∧
    (2 < ([⟨"a".data, "x".data, "f".data, 3⟩, ⟨"b".data, "y".data, "f".data, 0⟩,
        ⟨"c".data, "z".data, "f".data, 1⟩] : List Word).length ∧
      0 < ecOf [⟨"a".data, "x".data, "f".data, 3⟩, ⟨"b".data, "y".data, "f".data, 0⟩,
        ⟨"c".data, "z".data, "f".data, 1⟩] 2) := by
  have h := rankedEntries_spec [⟨"a".data, "x".data, "f".data, 3⟩,
    ⟨"b".data, "y".data, "f".data, 0⟩, ⟨"c".data, "z".data, "f".data, 1⟩]
  exact ⟨h.2.1 0 1 (by decide) (by decide), h.2.2 2 (by decide)⟩

/-- Counterexample to C1 as stated: with storage error counts
`[2, 2, 3]` the ledger comes out as `[2, 1, 0]` — entries 0 and 1 are
tied, yet 1 is listed before 0, so ties do not preserve storage order
(the selection-sort swap moved entry 0 behind entry 1). -/
theorem rankedEntries_not_stable :
    rankedEntries ledgerLib = [2, 1, 0] ∧
    ecOf ledgerLib 0 = ecOf ledgerLib 1 ∧
    ¬ (∀ p, p < (rankedEntries ledgerLib).length →
        ∀ q, q < (rankedEntries ledgerLib).length → p < q →
          ecOf ledgerLib ((rankedEntries ledgerLib).getD p 0) =
            ecOf ledgerLib ((rankedEntries ledgerLib).getD q 0) →
          (rankedEntries ledgerLib).getD p 0 < (rankedEntries ledgerLib).getD q 0) := by
  refine ⟨by decide, by decide, by decide⟩
